import Mathlib

/-!
# Verification of the EGX Portfolio Manager rebalancing engine

Shallow embedding of `backend/app/services/rebalancing_service.py` and
`backend/app/services/strategy_service.py`.  Python floats are modelled as
rationals (`ℚ`), Python ints as `ℤ`/`ℕ`, SQL rows as Lean structures, and the
per-strategy database state as explicit lists.  Dictionaries keyed by stock id
are modelled as association lists in insertion order (Python dicts preserve
insertion order); `db.add` appends a row at the end of the list.
-/

namespace EGX

/-- One stock allocation inside a portfolio allocation:
`stock_allocations` maps a stock id to a percentage. -/
structure StockAlloc where
  stockId : Nat
  pct : ℚ
deriving Repr, DecidableEq

/-- One entry of `strategy.portfolio_allocations`:
`{portfolio_id, percentage, stock_allocations}`. -/
structure PortfolioAlloc where
  portfolioId : Nat
  percentage : ℚ
  stockAllocations : List StockAlloc
deriving Repr, DecidableEq

/-- The read-only database environment seen by the services: which portfolio
rows exist, and the `Stock.current_price` of each stock id that has a `Stock`
row (`none` models a missing row, which the Python code skips). -/
structure Env where
  portfolioExists : Nat → Bool
  price : Nat → Option ℚ

/-- One value of the `target_allocations` dict built by
`_calculate_target_allocations`: `{"quantity", "stock", "target_value"}`,
with the stock object represented by its id and current price. -/
structure TargetEntry where
  stockId : Nat
  quantity : ℤ
  price : ℚ
  targetValue : ℚ
deriving Repr, DecidableEq

/-- `target_allocations[stock_id] += ...` / insertion: if the stock id is
already a key, add to its quantity and target value, otherwise append a new
entry (Python dicts keep insertion order). -/
def upsertEntry (es : List TargetEntry) (sid : Nat) (q : ℤ) (p tv : ℚ) :
    List TargetEntry :=
  match es with
  | [] => [⟨sid, q, p, tv⟩]
  | e :: rest =>
    if e.stockId = sid then
      { e with quantity := e.quantity + q, targetValue := e.targetValue + tv } :: rest
    else
      e :: upsertEntry rest sid q p tv

/-- Inner loop body of `_calculate_target_allocations`: for one stock
allocation, look the stock up (skip if missing), compute
`stock_funds = portfolio_funds * pct/100` and `quantity = floor(stock_funds / price)`,
and aggregate into the target dict. -/
def floorStock (env : Env) (portfolioFunds : ℚ) (es : List TargetEntry)
    (sa : StockAlloc) : List TargetEntry :=
  match env.price sa.stockId with
  | none => es
  | some p =>
    let stockFunds := portfolioFunds * (sa.pct / 100)
    upsertEntry es sa.stockId ⌊stockFunds / p⌋ p stockFunds

/-- Outer loop body of `_calculate_target_allocations`: skip portfolio
allocations whose portfolio row is missing, otherwise process each stock
allocation with `portfolio_funds = total_value * percentage/100`. -/
def floorPortfolio (env : Env) (totalValue : ℚ) (es : List TargetEntry)
    (pa : PortfolioAlloc) : List TargetEntry :=
  if env.portfolioExists pa.portfolioId then
    pa.stockAllocations.foldl (floorStock env (totalValue * (pa.percentage / 100))) es
  else es

/-- The floor-quantization stage of `_calculate_target_allocations`
(everything before the greedy leftover redistribution). -/
def floorStage (env : Env) (allocs : List PortfolioAlloc) (totalValue : ℚ) :
    List TargetEntry :=
  allocs.foldl (floorPortfolio env totalValue) []

/-- One full `for stock_id, alloc in sorted_stocks:` pass of the greedy
redistribution: buy one extra share of each entry that is still affordable,
in list order, threading the remaining cash; the boolean is `allocated_any`. -/
def greedyPass : List TargetEntry → ℚ → List TargetEntry × ℚ × Bool
  | [], cash => ([], cash, false)
  | e :: rest, cash =>
    if e.price ≤ cash then
      let r := greedyPass rest (cash - e.price)
      ({ e with quantity := e.quantity + 1 } :: r.1, r.2.1, true)
    else
      let r := greedyPass rest cash
      (e :: r.1, r.2.1, r.2.2)

/-- The `while remaining_cash > 0:` loop of the greedy redistribution,
with explicit fuel (the Python loop is unbounded; `greedyFuel` below is proved
sufficient whenever every price is positive). The loop exits when the cash is
exhausted or a full pass allocates nothing. -/
def greedyLoop : Nat → List TargetEntry → ℚ → List TargetEntry × ℚ
  | 0, es, cash => (es, cash)
  | fuel + 1, es, cash =>
    if 0 < cash then
      let r := greedyPass es cash
      if r.2.2 then greedyLoop fuel r.1 r.2.1 else (r.1, r.2.1)
    else (es, cash)

/-- Stable insertion used to model Python's stable
`sorted(..., key=price)` (cheapest first). -/
def insertByPrice (e : TargetEntry) : List TargetEntry → List TargetEntry
  | [] => [e]
  | x :: xs => if e.price ≤ x.price then e :: x :: xs else x :: insertByPrice e xs

/-- `sorted(target_allocations.items(), key=lambda x: price)`: stable sort of
the entries, ascending by price. -/
def sortByPrice (es : List TargetEntry) : List TargetEntry :=
  es.foldr insertByPrice []

/-- `min(prices)` over the target entries, `none` when there are none
(Python uses `default=float('inf')`). -/
def minPrice? : List TargetEntry → Option ℚ
  | [] => none
  | e :: rest =>
    match minPrice? rest with
    | none => some e.price
    | some m => some (min e.price m)

/-- Fuel for `greedyLoop`, proved sufficient when every price is positive:
one pass more than `⌈leftover / cheapest price⌉`. -/
def greedyFuel (es : List TargetEntry) (cash : ℚ) : Nat :=
  match minPrice? es with
  | none => 1
  | some m => if 0 < m then (⌈cash / m⌉).toNat + 1 else 1

/-- Total cost `Σ quantity × price` of a list of target entries
(`spent = sum(qty * price)` in the Python code). -/
def entriesSpent (es : List TargetEntry) : ℚ :=
  (es.map (fun e => (e.quantity : ℚ) * e.price)).sum

/-- `_calculate_target_allocations(db, strategy, total_value)`: floor
quantization per portfolio/stock allocation, then greedy leftover
redistribution over the entries sorted ascending by price.  Returns the
final entries together with the leftover cash.  (The Python function returns
the dict in insertion order; the same finite map is returned here in price
order, which is how every caller consumes it.) -/
def calcTargetAllocations (env : Env) (allocs : List PortfolioAlloc) (F : ℚ) :
    List TargetEntry × ℚ :=
  let es := floorStage env allocs F
  let leftover := F - entriesSpent es
  let sorted := sortByPrice es
  greedyLoop (greedyFuel sorted leftover) sorted leftover

/-- Scenario A environment: stock 1 at price 100, stock 2 at price 300. -/
def envA : Env where
  portfolioExists := fun _ => true
  price := fun sid => if sid = 1 then some 100 else if sid = 2 then some 300 else none

/-- Scenario A allocations: one portfolio at 100 %, two stocks at 50/50. -/
def allocsA : List PortfolioAlloc :=
  [⟨1, 100, [⟨1, 50⟩, ⟨2, 50⟩]⟩]

/-- Full evaluation of the calculator on Scenario A: floor gives 50 and 16,
two greedy passes add two more shares of the cheap stock, the leftover ends
at 0. -/
theorem scenarioA_eval :
    calcTargetAllocations envA allocsA 10000 =
      ([⟨1, 52, 100, 5000⟩, ⟨2, 16, 300, 5000⟩], 0) := by
  norm_num [calcTargetAllocations, entriesSpent, floorStage, floorPortfolio, floorStock,
    upsertEntry, envA, allocsA, sortByPrice, insertByPrice, minPrice?, greedyFuel,
    greedyLoop, greedyPass, Int.toNat]

/-! ## Properties of the greedy leftover redistribution -/

/-- A state of the greedy loop from which the Python `while` would exit at
once: the cash is exhausted, or a full pass allocates nothing. -/
def greedyDone (es : List TargetEntry) (cash : ℚ) : Prop :=
  cash ≤ 0 ∨ (greedyPass es cash).2.2 = false

/-- The Python greedy `while` loop reaches, after finitely many passes, a
state from which it exits. -/
def greedyTerminates (es : List TargetEntry) (cash : ℚ) : Prop :=
  ∃ fuel, greedyDone (greedyLoop fuel es cash).1 (greedyLoop fuel es cash).2

theorem greedyPass_false_eq (es : List TargetEntry) (cash : ℚ)
    (h : (greedyPass es cash).2.2 = false) : greedyPass es cash = (es, cash, false) := by
  induction es generalizing cash with
  | nil => rfl
  | cons e rest ih =>
    by_cases hle : e.price ≤ cash
    · simp only [greedyPass, if_pos hle] at h
      exact Bool.noConfusion h
    · simp only [greedyPass, if_neg hle] at h ⊢
      rw [ih cash h]

theorem greedyPass_false_lt (es : List TargetEntry) (cash : ℚ)
    (h : (greedyPass es cash).2.2 = false) : ∀ e ∈ es, cash < e.price := by
  induction es generalizing cash with
  | nil => intro e he; cases he
  | cons e rest ih =>
    by_cases hle : e.price ≤ cash
    · simp only [greedyPass, if_pos hle] at h
      exact Bool.noConfusion h
    · simp only [greedyPass, if_neg hle] at h
      intro x hx
      rcases List.mem_cons.mp hx with hx | hx
      · subst hx; exact lt_of_not_le hle
      · exact ih cash h x hx

theorem greedyPass_prices (es : List TargetEntry) (cash : ℚ) :
    (greedyPass es cash).1.map (·.price) = es.map (·.price) := by
  induction es generalizing cash with
  | nil => rfl
  | cons e rest ih =>
    by_cases hle : e.price ≤ cash
    · simp only [greedyPass, if_pos hle, List.map_cons]
      rw [ih]
    · simp only [greedyPass, if_neg hle, List.map_cons]
      rw [ih]

theorem greedyPass_cash_le (es : List TargetEntry) (cash : ℚ)
    (h : ∀ e ∈ es, 0 ≤ e.price) : (greedyPass es cash).2.1 ≤ cash := by
  induction es generalizing cash with
  | nil => exact le_refl cash
  | cons e rest ih =>
    have he : 0 ≤ e.price := h e (List.mem_cons_self _ _)
    have hr : ∀ x ∈ rest, 0 ≤ x.price := fun x hx => h x (List.mem_cons_of_mem _ hx)
    by_cases hle : e.price ≤ cash
    · simp only [greedyPass, if_pos hle]
      calc (greedyPass rest (cash - e.price)).2.1 ≤ cash - e.price := ih _ hr
        _ ≤ cash := by linarith
    · simp only [greedyPass, if_neg hle]
      exact ih cash hr

theorem greedyPass_true_cash (es : List TargetEntry) (cash m : ℚ)
    (hm : ∀ e ∈ es, m ≤ e.price) (h0 : 0 ≤ m)
    (h : (greedyPass es cash).2.2 = true) : (greedyPass es cash).2.1 ≤ cash - m := by
  induction es generalizing cash with
  | nil => simp [greedyPass] at h
  | cons e rest ih =>
    have he : m ≤ e.price := hm e (List.mem_cons_self _ _)
    have hr : ∀ x ∈ rest, m ≤ x.price := fun x hx => hm x (List.mem_cons_of_mem _ hx)
    have hr0 : ∀ x ∈ rest, 0 ≤ x.price := fun x hx => le_trans h0 (hr x hx)
    by_cases hle : e.price ≤ cash
    · simp only [greedyPass, if_pos hle]
      calc (greedyPass rest (cash - e.price)).2.1 ≤ cash - e.price :=
            greedyPass_cash_le _ _ hr0
        _ ≤ cash - m := by linarith
    · simp only [greedyPass, if_neg hle] at h ⊢
      exact ih cash hr h

theorem greedyPass_conserve (es : List TargetEntry) (cash : ℚ) :
    entriesSpent (greedyPass es cash).1 + (greedyPass es cash).2.1 =
      entriesSpent es + cash := by
  induction es generalizing cash with
  | nil => rfl
  | cons e rest ih =>
    by_cases hle : e.price ≤ cash
    · simp only [greedyPass, if_pos hle, entriesSpent, List.map_cons, List.sum_cons]
      have := ih (cash - e.price)
      simp only [entriesSpent] at this
      push_cast
      linarith
    · simp only [greedyPass, if_neg hle, entriesSpent, List.map_cons, List.sum_cons]
      have := ih cash
      simp only [entriesSpent] at this
      linarith

theorem greedyLoop_prices (fuel : Nat) (es : List TargetEntry) (cash : ℚ) :
    (greedyLoop fuel es cash).1.map (·.price) = es.map (·.price) := by
  induction fuel generalizing es cash with
  | zero => rfl
  | succ n ih =>
    by_cases hc : 0 < cash
    · simp only [greedyLoop, if_pos hc]
      by_cases ha : (greedyPass es cash).2.2 = true
      · simp only [ha, ite_true]
        rw [ih, greedyPass_prices]
      · simp only [eq_false_of_ne_true ha, Bool.false_eq_true, ite_false]
        rw [greedyPass_prices]
    · simp only [greedyLoop, if_neg hc]

theorem greedyLoop_conserve (fuel : Nat) (es : List TargetEntry) (cash : ℚ) :
    entriesSpent (greedyLoop fuel es cash).1 + (greedyLoop fuel es cash).2 =
      entriesSpent es + cash := by
  induction fuel generalizing es cash with
  | zero => rfl
  | succ n ih =>
    by_cases hc : 0 < cash
    · simp only [greedyLoop, if_pos hc]
      by_cases ha : (greedyPass es cash).2.2 = true
      · simp only [ha, ite_true]
        rw [ih, greedyPass_conserve]
      · simp only [eq_false_of_ne_true ha, Bool.false_eq_true, ite_false]
        exact greedyPass_conserve es cash
    · simp only [greedyLoop, if_neg hc]

theorem greedyLoop_done (fuel : Nat) (es : List TargetEntry) (cash m : ℚ)
    (hm : ∀ e ∈ es, m ≤ e.price) (h0 : 0 < m) (hf : cash < fuel * m) :
    greedyDone (greedyLoop fuel es cash).1 (greedyLoop fuel es cash).2 := by
  induction fuel generalizing es cash with
  | zero =>
    left
    simp only [greedyLoop]
    push_cast at hf
    linarith
  | succ n ih =>
    by_cases hc : 0 < cash
    · simp only [greedyLoop, if_pos hc]
      by_cases ha : (greedyPass es cash).2.2 = true
      · simp only [ha, ite_true]
        have hprices : ∀ e ∈ (greedyPass es cash).1, m ≤ e.price := by
          intro e he
          have : e.price ∈ (greedyPass es cash).1.map (·.price) :=
            List.mem_map_of_mem _ he
          rw [greedyPass_prices] at this
          rcases List.mem_map.mp this with ⟨x, hx, hxe⟩
          rw [← hxe]; exact hm x hx
        have hcash : (greedyPass es cash).2.1 ≤ cash - m :=
          greedyPass_true_cash es cash m hm (le_of_lt h0) ha
        refine ih _ _ hprices ?_
        push_cast at hf ⊢
        have hexp : (↑n + 1 : ℚ) * m = ↑n * m + m := by ring
        rw [hexp] at hf
        linarith
      · simp only [eq_false_of_ne_true ha, Bool.false_eq_true, ite_false]
        right
        rw [greedyPass_false_eq es cash (eq_false_of_ne_true ha)]
        exact eq_false_of_ne_true ha
    · simp only [greedyLoop, if_neg hc]
      left
      exact le_of_not_lt hc

theorem greedyDone_lt (es : List TargetEntry) (cash : ℚ)
    (h : greedyDone es cash) : ∀ e ∈ es, 0 < e.price → cash < e.price := by
  intro e he hp
  rcases h with h | h
  · exact lt_of_le_of_lt h hp
  · exact greedyPass_false_lt es cash h e he

/-! ## Provenance of prices through the floor stage and the sort -/

theorem mem_upsertEntry (es : List TargetEntry) (sid : Nat) (q : ℤ) (p tv : ℚ) :
    ∀ x ∈ upsertEntry es sid q p tv,
      (∃ e ∈ es, x.stockId = e.stockId ∧ x.price = e.price) ∨
      (x.stockId = sid ∧ x.price = p) := by
  induction es with
  | nil =>
    intro x hx
    simp only [upsertEntry, List.mem_singleton] at hx
    right
    rw [hx]
    exact ⟨rfl, rfl⟩
  | cons e rest ih =>
    intro x hx
    by_cases hk : e.stockId = sid
    · simp only [upsertEntry, if_pos hk] at hx
      rcases List.mem_cons.mp hx with hx | hx
      · left; exact ⟨e, List.mem_cons_self _ _, by rw [hx], by rw [hx]⟩
      · left
        exact ⟨x, List.mem_cons_of_mem _ hx, rfl, rfl⟩
    · simp only [upsertEntry, if_neg hk] at hx
      rcases List.mem_cons.mp hx with hx | hx
      · left; exact ⟨e, List.mem_cons_self _ _, by rw [hx], by rw [hx]⟩
      · rcases ih x hx with ⟨y, hy, hxy⟩ | h
        · left; exact ⟨y, List.mem_cons_of_mem _ hy, hxy⟩
        · right; exact h

/-- Every entry produced by the floor stage carries the environment price of
its stock id. -/
def PricedBy (env : Env) (e : TargetEntry) : Prop :=
  env.price e.stockId = some e.price

theorem floorStock_priced (env : Env) (pf : ℚ) (es : List TargetEntry) (sa : StockAlloc)
    (h : ∀ e ∈ es, PricedBy env e) : ∀ e ∈ floorStock env pf es sa, PricedBy env e := by
  intro x hx
  unfold floorStock at hx
  cases hp : env.price sa.stockId with
  | none => rw [hp] at hx; exact h x hx
  | some p =>
    rw [hp] at hx
    rcases mem_upsertEntry _ _ _ _ _ x hx with ⟨e, he, h1, h2⟩ | ⟨h1, h2⟩
    · unfold PricedBy; rw [h1, h2]; exact h e he
    · unfold PricedBy; rw [h1, h2]; exact hp

theorem floorStocks_priced (env : Env) (pf : ℚ) (sas : List StockAlloc) :
    ∀ es, (∀ e ∈ es, PricedBy env e) →
      ∀ e ∈ sas.foldl (floorStock env pf) es, PricedBy env e := by
  induction sas with
  | nil => intro es h; exact h
  | cons sa rest ih =>
    intro es h
    exact ih _ (floorStock_priced env pf es sa h)

theorem floorPortfolio_priced (env : Env) (tv : ℚ) (es : List TargetEntry)
    (pa : PortfolioAlloc) (h : ∀ e ∈ es, PricedBy env e) :
    ∀ e ∈ floorPortfolio env tv es pa, PricedBy env e := by
  unfold floorPortfolio
  by_cases hex : env.portfolioExists pa.portfolioId
  · rw [if_pos hex]
    exact floorStocks_priced env _ _ es h
  · rw [if_neg hex]
    exact h

theorem floorStage_priced (env : Env) (allocs : List PortfolioAlloc) (F : ℚ) :
    ∀ e ∈ floorStage env allocs F, PricedBy env e := by
  unfold floorStage
  generalize hacc : ([] : List TargetEntry) = acc
  have hbase : ∀ e ∈ acc, PricedBy env e := by rw [← hacc]; intro e he; cases he
  clear hacc
  induction allocs generalizing acc with
  | nil => exact hbase
  | cons pa rest ih =>
    exact ih _ (floorPortfolio_priced env F acc pa hbase)

theorem mem_insertByPrice (e : TargetEntry) (l : List TargetEntry) :
    ∀ x, x ∈ insertByPrice e l ↔ x = e ∨ x ∈ l := by
  induction l with
  | nil => intro x; simp [insertByPrice]
  | cons a rest ih =>
    intro x
    by_cases hle : e.price ≤ a.price
    · simp [insertByPrice, if_pos hle]
    · simp only [insertByPrice, if_neg hle, List.mem_cons, ih x]
      tauto

theorem mem_sortByPrice (es : List TargetEntry) :
    ∀ x, x ∈ sortByPrice es ↔ x ∈ es := by
  induction es with
  | nil => intro x; simp [sortByPrice]
  | cons e rest ih =>
    intro x
    have : sortByPrice (e :: rest) = insertByPrice e (sortByPrice rest) := rfl
    rw [this, mem_insertByPrice, ih x, List.mem_cons]

theorem entriesSpent_insertByPrice (e : TargetEntry) (l : List TargetEntry) :
    entriesSpent (insertByPrice e l) = (e.quantity : ℚ) * e.price + entriesSpent l := by
  induction l with
  | nil => simp [insertByPrice, entriesSpent]
  | cons a rest ih =>
    by_cases hle : e.price ≤ a.price
    · simp [insertByPrice, if_pos hle, entriesSpent]
    · simp only [insertByPrice, if_neg hle, entriesSpent, List.map_cons, List.sum_cons]
      simp only [entriesSpent] at ih
      rw [ih]
      ring

theorem entriesSpent_sortByPrice (es : List TargetEntry) :
    entriesSpent (sortByPrice es) = entriesSpent es := by
  induction es with
  | nil => rfl
  | cons e rest ih =>
    have : sortByPrice (e :: rest) = insertByPrice e (sortByPrice rest) := rfl
    rw [this, entriesSpent_insertByPrice, ih]
    simp [entriesSpent]

theorem minPrice?_cons_ne_none (e : TargetEntry) (rest : List TargetEntry) :
    minPrice? (e :: rest) ≠ none := by
  cases h : minPrice? rest <;> simp [minPrice?, h]

theorem minPrice?_eq_none (es : List TargetEntry) : minPrice? es = none ↔ es = [] := by
  cases es with
  | nil => simp [minPrice?]
  | cons e rest => simp [minPrice?_cons_ne_none]

theorem minPrice?_le (es : List TargetEntry) :
    ∀ m, minPrice? es = some m → ∀ e ∈ es, m ≤ e.price := by
  induction es with
  | nil => intro m hm e he; cases he
  | cons e rest ih =>
    intro m hm x hx
    cases hr : minPrice? rest with
    | none =>
      have hrest : rest = [] := (minPrice?_eq_none rest).mp hr
      subst hrest
      simp only [minPrice?, hr] at hm
      rcases List.mem_cons.mp hx with hx | hx
      · rw [hx, ← Option.some_inj.mp hm]
      · cases hx
    | some mr =>
      simp only [minPrice?, hr] at hm
      have hmm : m = min e.price mr := (Option.some_inj.mp hm).symm
      rcases List.mem_cons.mp hx with hx | hx
      · rw [hx, hmm]; exact min_le_left _ _
      · rw [hmm]
        exact le_trans (min_le_right _ _) (ih mr hr x hx)

theorem minPrice?_mem (es : List TargetEntry) :
    ∀ m, minPrice? es = some m → ∃ e ∈ es, e.price = m := by
  induction es with
  | nil => intro m hm; cases hm
  | cons e rest ih =>
    intro m hm
    cases hr : minPrice? rest with
    | none =>
      simp only [minPrice?, hr] at hm
      exact ⟨e, List.mem_cons_self _ _, Option.some_inj.mp hm⟩
    | some mr =>
      simp only [minPrice?, hr] at hm
      have hmm : m = min e.price mr := (Option.some_inj.mp hm).symm
      rcases le_total e.price mr with hle | hle
      · exact ⟨e, List.mem_cons_self _ _, by rw [hmm, min_eq_left hle]⟩
      · rcases ih mr hr with ⟨x, hx, hxm⟩
        exact ⟨x, List.mem_cons_of_mem _ hx, by rw [hmm, min_eq_right hle, hxm]⟩

theorem cash_lt_greedyFuel_mul (es : List TargetEntry) (cash m : ℚ)
    (hmin : minPrice? es = some m) (h0 : 0 < m) :
    cash < (greedyFuel es cash : ℚ) * m := by
  have hfe : greedyFuel es cash = ⌈cash / m⌉.toNat + 1 := by
    unfold greedyFuel
    rw [hmin]
    exact if_pos h0
  rw [hfe]
  have hk : cash / m ≤ (⌈cash / m⌉ : ℚ) := Int.le_ceil _
  have h1 : cash ≤ (⌈cash / m⌉ : ℚ) * m := by
    rw [div_le_iff₀ h0] at hk
    exact hk
  have h2 : (⌈cash / m⌉ : ℚ) ≤ ((⌈cash / m⌉.toNat : ℕ) : ℚ) := by
    exact_mod_cast Int.self_le_toNat _
  have h3 : (⌈cash / m⌉ : ℚ) * m ≤ ((⌈cash / m⌉.toNat : ℕ) : ℚ) * m :=
    mul_le_mul_of_nonneg_right h2 (le_of_lt h0)
  have h4 : ((((⌈cash / m⌉.toNat : ℕ) + 1 : ℕ)) : ℚ) * m =
      ((⌈cash / m⌉.toNat : ℕ) : ℚ) * m + m := by
    push_cast
    ring
  rw [h4]
  linarith

/-- Transfer a price predicate along an equality of price lists. -/
theorem forall_price_of_map_eq {l₁ l₂ : List TargetEntry}
    (h : l₁.map (·.price) = l₂.map (·.price)) (P : ℚ → Prop)
    (hp : ∀ e ∈ l₂, P e.price) : ∀ e ∈ l₁, P e.price := by
  intro e he
  have : e.price ∈ l₁.map (·.price) := List.mem_map_of_mem _ he
  rw [h] at this
  rcases List.mem_map.mp this with ⟨x, hx, hxe⟩
  rw [← hxe]
  exact hp x hx

/-- Main invariant of the calculator: when every price known to the
environment is positive, the leftover after `calcTargetAllocations` is
strictly below every resulting entry's price. -/
theorem calcTargetAllocations_leftover_lt (env : Env) (allocs : List PortfolioAlloc)
    (F : ℚ) (hpos : ∀ sid p, env.price sid = some p → 0 < p) :
    ∀ e ∈ (calcTargetAllocations env allocs F).1,
      F - entriesSpent (calcTargetAllocations env allocs F).1 < e.price := by
  have hpr : ∀ e ∈ sortByPrice (floorStage env allocs F), 0 < e.price := by
    intro e he
    have hmem : e ∈ floorStage env allocs F := (mem_sortByPrice _ e).mp he
    exact hpos _ _ (floorStage_priced env allocs F e hmem)
  set es₀ := floorStage env allocs F with hes₀
  set lo := F - entriesSpent es₀ with hlo
  set sorted := sortByPrice es₀ with hsorted
  have hcalc : calcTargetAllocations env allocs F =
      greedyLoop (greedyFuel sorted lo) sorted lo := rfl
  have hresult_cash : (calcTargetAllocations env allocs F).2 =
      F - entriesSpent (calcTargetAllocations env allocs F).1 := by
    rw [hcalc]
    have hc := greedyLoop_conserve (greedyFuel sorted lo) sorted lo
    have hs : entriesSpent sorted = entriesSpent es₀ := entriesSpent_sortByPrice es₀
    rw [hs] at hc
    rw [hlo] at hc ⊢
    linarith
  have hdone : greedyDone (calcTargetAllocations env allocs F).1
      (calcTargetAllocations env allocs F).2 := by
    rw [hcalc]
    cases hm : minPrice? sorted with
    | none =>
      have hnil : sorted = [] := (minPrice?_eq_none sorted).mp hm
      have hres : (greedyLoop (greedyFuel sorted lo) sorted lo).1 = [] := by
        have := greedyLoop_prices (greedyFuel sorted lo) sorted lo
        rw [hnil] at this ⊢
        exact List.map_eq_nil_iff.mp this
      right
      rw [hres]
      rfl
    | some m =>
      have h0 : 0 < m := by
        rcases minPrice?_mem sorted m hm with ⟨e, he, hep⟩
        rw [← hep]
        exact hpr e he
      exact greedyLoop_done _ sorted lo m (minPrice?_le sorted m hm) h0
        (cash_lt_greedyFuel_mul sorted lo m hm h0)
  intro e he
  have hpe : 0 < e.price := by
    have hmap := greedyLoop_prices (greedyFuel sorted lo) sorted lo
    have := forall_price_of_map_eq hmap (fun p => 0 < p) hpr
    rw [hcalc] at he
    exact this e he
  have := greedyDone_lt _ _ hdone e he hpe
  rw [← hresult_cash]
  exact this

theorem greedyLoop_one_nil (cash : ℚ) : greedyLoop 1 [] cash = ([], cash) := by
  by_cases hc : 0 < cash
  · simp [greedyLoop, greedyPass, hc]
  · simp [greedyLoop, hc]

theorem zeroPrice_loop (fuel : Nat) : ∀ q : ℤ,
    greedyLoop fuel [⟨1, q, 0, 0⟩] 1 = ([⟨1, q + fuel, 0, 0⟩], 1) := by
  induction fuel with
  | zero => intro q; simp [greedyLoop]
  | succ n ih =>
    intro q
    have hpass : greedyPass [⟨1, q, 0, 0⟩] 1 = ([⟨1, q + 1, 0, 0⟩], 1, true) := by
      simp only [greedyPass]
      norm_num
    have h01 : (0 : ℚ) < 1 := by norm_num
    simp only [greedyLoop, if_pos h01, hpass, ite_true]
    rw [ih (q + 1)]
    congr 2
    push_cast
    ring

/-! ## Claim theorems for the Target Allocation Calculator -/

/-- C1: for every total-funds value and every allocation list whose
referenced securities all have strictly positive prices, after the Target
Allocation Calculator runs, the leftover cash (funds minus Σ target quantity
× price) is strictly less than the price of every security that still has a
nonzero target allocation, or no allocated security's price is ≤ the
leftover. -/
theorem C1_calculator_leftover_fixed_point (env : Env) (allocs : List PortfolioAlloc)
    (F : ℚ) (hpos : ∀ sid p, env.price sid = some p → 0 < p) :
    (∀ e ∈ (calcTargetAllocations env allocs F).1, e.quantity ≠ 0 →
        F - entriesSpent (calcTargetAllocations env allocs F).1 < e.price) ∨
    (∀ e ∈ (calcTargetAllocations env allocs F).1,
        ¬(e.price ≤ F - entriesSpent (calcTargetAllocations env allocs F).1)) := by
  right
  intro e he
  exact not_le.mpr (calcTargetAllocations_leftover_lt env allocs F hpos e he)

theorem envA_prices_pos : ∀ sid p, envA.price sid = some p → 0 < p := by
  intro sid p hp
  unfold envA at hp
  dsimp only at hp
  split_ifs at hp
  · rw [← Option.some_inj.mp hp]; norm_num
  · rw [← Option.some_inj.mp hp]; norm_num

/-- Witness for C1: the invariant applied to Scenario A, for the price-100
security (which keeps a nonzero allocation there). -/
theorem C1_calculator_leftover_fixed_point_witness :
    10000 - entriesSpent (calcTargetAllocations envA allocsA 10000).1 < 100 := by
  have hmem : (⟨1, 52, 100, 5000⟩ : TargetEntry) ∈
      (calcTargetAllocations envA allocsA 10000).1 := by
    rw [scenarioA_eval]
    simp
  rcases C1_calculator_leftover_fixed_point envA allocsA 10000 envA_prices_pos with h | h
  · simpa using h _ hmem (by norm_num)
  · simpa using not_le.mp (h _ hmem)

/-- C2: Scenario A — total funds 10000, one portfolio at 100 %, two stocks
at 50/50 with prices 100 and 300 — yields target quantities 52 and 16, total
spent 10000 and leftover 0. -/
theorem C2_scenarioA :
    (calcTargetAllocations envA allocsA 10000).1 =
        [⟨1, 52, 100, 5000⟩, ⟨2, 16, 300, 5000⟩] ∧
    entriesSpent (calcTargetAllocations envA allocsA 10000).1 = 10000 ∧
    (calcTargetAllocations envA allocsA 10000).2 = 0 := by
  refine ⟨?_, ?_, ?_⟩ <;> rw [scenarioA_eval] <;> norm_num [entriesSpent]

/-- Environment for the non-positive-price failing input of C3:
stock 1 has `current_price = -100`. -/
def envC3 : Env where
  portfolioExists := fun _ => true
  price := fun sid => if sid = 1 then some (-100) else none

/-- Allocations for C3's failing input: one portfolio at 100 %, one stock at
100 %. -/
def allocsC3 : List PortfolioAlloc :=
  [⟨1, 100, [⟨1, 100⟩]⟩]

/-- C3 (code bug in `_calculate_target_allocations`): the spec requires a
typed InvalidPrice failure before quantization for any price ≤ 0, but the
code contains no price check at all: on a referenced security with price
−100 and funds 10000 it silently floor-divides, producing target quantity
−100 with no error. -/
theorem C3_nonpositive_price_silently_quantized :
    calcTargetAllocations envC3 allocsC3 10000 = ([⟨1, -100, -100, 10000⟩], 0) ∧
    ∀ e ∈ (calcTargetAllocations envC3 allocsC3 10000).1, e.quantity < 0 := by
  have h : calcTargetAllocations envC3 allocsC3 10000 = ([⟨1, -100, -100, 10000⟩], 0) := by
    norm_num [calcTargetAllocations, entriesSpent, floorStage, floorPortfolio, floorStock,
      upsertEntry, envC3, allocsC3, sortByPrice, insertByPrice, minPrice?, greedyFuel,
      greedyLoop, greedyPass, Int.toNat]
  refine ⟨h, ?_⟩
  rw [h]
  intro e he
  simp only [List.mem_singleton] at he
  rw [he]
  norm_num

/-- C10: the greedy leftover-redistribution loop terminates (reaches a state
the `while` exits from) whenever every entry's price is strictly positive;
positivity is necessary — with a zero-priced entry and positive leftover the
loop never reaches an exit state, because the affordability check never
decreases the leftover. -/
theorem C10_greedy_termination :
    (∀ es cash, (∀ e ∈ es, 0 < e.price) → greedyTerminates es cash) ∧
    ¬ greedyTerminates [⟨1, 0, 0, 0⟩] 1 := by
  constructor
  · intro es cash hpos
    cases hm : minPrice? es with
    | none =>
      have hnil : es = [] := (minPrice?_eq_none es).mp hm
      subst hnil
      refine ⟨1, ?_⟩
      rw [greedyLoop_one_nil]
      right
      rfl
    | some m =>
      have h0 : 0 < m := by
        rcases minPrice?_mem es m hm with ⟨e, he, hep⟩
        rw [← hep]
        exact hpos e he
      exact ⟨greedyFuel es cash,
        greedyLoop_done _ es cash m (minPrice?_le es m hm) h0
          (cash_lt_greedyFuel_mul es cash m hm h0)⟩
  · rintro ⟨fuel, hdone⟩
    rw [zeroPrice_loop fuel 0] at hdone
    rcases hdone with h | h
    · norm_num at h
    · have hpass : (greedyPass [⟨1, (0 : ℤ) + fuel, 0, 0⟩] 1).2.2 = true := by
        simp only [greedyPass]
        norm_num
      rw [hpass] at h
      exact Bool.noConfusion h

/-- Witness for C10: the termination half applied to the Scenario A entries
with leftover 200. -/
theorem C10_greedy_termination_witness :
    greedyTerminates [⟨1, 50, 100, 5000⟩, ⟨2, 16, 300, 5000⟩] 200 := by
  refine C10_greedy_termination.1 _ 200 ?_
  intro e he
  rcases List.mem_cons.mp he with h | h
  · rw [h]; norm_num
  · rcases List.mem_cons.mp h with h' | h'
    · rw [h']; norm_num
    · cases h'

/-! ## The rebalancing action generator (`calculate_rebalancing`) -/

/-- `RebalancingService.MIN_ACTION_QUANTITY`. -/
def MIN_ACTION_QUANTITY : ℤ := 5

/-- `RebalancingService.MIN_ACTION_VALUE`. -/
def MIN_ACTION_VALUE : ℚ := 500

/-- `RebalancingService.REBALANCING_THRESHOLD_PERCENT`. -/
def REBALANCING_THRESHOLD_PERCENT : ℚ := 1

/-- Kind of a rebalancing action (`"buy"` / `"sell"`). -/
inductive ActionKind where
  | buy
  | sell
deriving Repr, DecidableEq

/-- One `RebalancingAction` of the calculation result
(`{action, stock_id, quantity, price, total_amount}`; the symbol field is a
display duplicate of the stock id and is omitted). -/
structure RebAction where
  action : ActionKind
  stockId : Nat
  quantity : ℤ
  price : ℚ
  totalAmount : ℚ
deriving Repr, DecidableEq

/-- One persisted action of a `RebalancingHistory` record:
`{"action", "stock_id", "quantity", "price"}`. -/
structure RecAction where
  action : ActionKind
  stockId : Nat
  quantity : ℤ
  price : ℚ
deriving Repr, DecidableEq

/-- Projection used when persisting a record (`actions_dict`). -/
def RebAction.toRecAction (a : RebAction) : RecAction :=
  ⟨a.action, a.stockId, a.quantity, a.price⟩

/-- A `Holding` row, restricted to the fields the engine reads or writes
(`user_id`/`strategy_id`/timestamps do not influence the engine's logic for
a fixed strategy). -/
structure HoldingRow where
  stockId : Nat
  quantity : ℤ
  averagePrice : ℚ
  currentValue : ℚ
deriving Repr, DecidableEq

/-- A `RebalancingHistory` row; list position models `created_at` order
(later rows were created later). -/
structure Record where
  id : Nat
  actions : List RecAction
  executed : Bool
  undone : Bool
deriving Repr, DecidableEq

/-- One value of the aggregated `current_holdings` dict:
`{"quantity", "stock"}`, the stock represented by id and price. -/
structure CurrentHolding where
  stockId : Nat
  quantity : ℤ
  price : ℚ
deriving Repr, DecidableEq

/-- Aggregation step of `current_holdings`: add the quantity to an existing
key or append a new one (first occurrence keeps its stock object). -/
def upsertCurrent (cur : List CurrentHolding) (sid : Nat) (q : ℤ) (p : ℚ) :
    List CurrentHolding :=
  match cur with
  | [] => [⟨sid, q, p⟩]
  | c :: rest =>
    if c.stockId = sid then { c with quantity := c.quantity + q } :: rest
    else c :: upsertCurrent rest sid q p

/-- The `select(Holding, Stock).join(...)` result: each holding row paired
with its stock's current price; rows whose stock id has no `Stock` row are
dropped by the inner join. -/
def joinedHoldings (env : Env) (holdings : List HoldingRow) : List (HoldingRow × ℚ) :=
  holdings.filterMap (fun h => (env.price h.stockId).map (fun p => (h, p)))

/-- `current_value = sum(h.quantity * s.current_price ...)`. -/
def currentValueOf (env : Env) (holdings : List HoldingRow) : ℚ :=
  ((joinedHoldings env holdings).map (fun hp => (hp.1.quantity : ℚ) * hp.2)).sum

/-- The `current_holdings` aggregation loop. -/
def currentHoldingsAgg (env : Env) (holdings : List HoldingRow) : List CurrentHolding :=
  (joinedHoldings env holdings).foldl
    (fun cur hp => upsertCurrent cur hp.1.stockId hp.1.quantity hp.2) []

/-- `current_quantity` lookup: 0 when the stock is not held (the aggregation
keeps one entry per stock id, so the first match is the value). -/
def lookupCurrentQty (cur : List CurrentHolding) (sid : Nat) : ℤ :=
  match cur with
  | [] => 0
  | c :: rest => if c.stockId = sid then c.quantity else lookupCurrentQty rest sid

/-- `stock_id in target_allocations`. -/
def MemTargets (targets : List TargetEntry) (sid : Nat) : Prop :=
  ∃ e ∈ targets, e.stockId = sid

instance decMemTargets (targets : List TargetEntry) (sid : Nat) :
    Decidable (MemTargets targets sid) := by
  unfold MemTargets
  infer_instance

/-- The target allocations used by `calculate_rebalancing`:
§4.1 run over `total_available_funds = current_value + remaining_cash`. -/
def targetsOf (env : Env) (allocs : List PortfolioAlloc) (holdings : List HoldingRow)
    (cash : ℚ) : List TargetEntry :=
  (calcTargetAllocations env allocs (currentValueOf env holdings + cash)).1

/-- `is_cash_utilization = remaining_cash > current_value * 0.001`. -/
def CashUtilization (env : Env) (holdings : List HoldingRow) (cash : ℚ) : Prop :=
  currentValueOf env holdings * (1 / 1000) < cash

instance decCashUtilization (env : Env) (holdings : List HoldingRow) (cash : ℚ) :
    Decidable (CashUtilization env holdings cash) := by
  unfold CashUtilization
  infer_instance

/-- Per-target-entry buy/sell decision with the minimum-size thresholds
(buys are exempt in cash-utilization mode; sells never are). -/
def diffAction (cashUtil : Prop) [Decidable cashUtil] (cur : List CurrentHolding)
    (e : TargetEntry) : Option RebAction :=
  let quantityDiff := e.quantity - lookupCurrentQty cur e.stockId
  if 0 < quantityDiff then
    if cashUtil ∨ (MIN_ACTION_QUANTITY ≤ quantityDiff ∧
        MIN_ACTION_VALUE ≤ (quantityDiff : ℚ) * e.price) then
      some ⟨.buy, e.stockId, quantityDiff, e.price, (quantityDiff : ℚ) * e.price⟩
    else none
  else if quantityDiff < 0 then
    if MIN_ACTION_QUANTITY ≤ -quantityDiff ∧
        MIN_ACTION_VALUE ≤ (-quantityDiff : ℚ) * e.price then
      some ⟨.sell, e.stockId, -quantityDiff, e.price, (-quantityDiff : ℚ) * e.price⟩
    else none
  else none

/-- Full-exit sells: every currently held stock absent from the target
allocations is sold completely, ignoring thresholds. -/
def removalSells (cur : List CurrentHolding) (targets : List TargetEntry) :
    List RebAction :=
  cur.filterMap fun c =>
    if MemTargets targets c.stockId then none
    else some ⟨.sell, c.stockId, c.quantity, c.price, (c.quantity : ℚ) * c.price⟩

/-- All candidate actions generated before the materiality gate:
target-diff actions in target order, then full-exit sells. -/
def candidateActions (env : Env) (allocs : List PortfolioAlloc)
    (holdings : List HoldingRow) (cash : ℚ) : List RebAction :=
  (targetsOf env allocs holdings cash).filterMap
      (diffAction (CashUtilization env holdings cash) (currentHoldingsAgg env holdings)) ++
    removalSells (currentHoldingsAgg env holdings) (targetsOf env allocs holdings cash)

/-- `total_rebalancing_amount = sum(action.total_amount ...)`. -/
def turnoverOf (env : Env) (allocs : List PortfolioAlloc) (holdings : List HoldingRow)
    (cash : ℚ) : ℚ :=
  ((candidateActions env allocs holdings cash).map (·.totalAmount)).sum

/-- `can_utilize_cash`: the cheapest target stock exists and
`remaining_cash ≥ cheapest_price * MIN_ACTION_QUANTITY`. -/
def CanUtilizeCash (targets : List TargetEntry) (cash : ℚ) : Prop :=
  match minPrice? targets with
  | none => False
  | some p => p * (MIN_ACTION_QUANTITY : ℚ) ≤ cash

instance decCanUtilizeCash (targets : List TargetEntry) (cash : ℚ) :
    Decidable (CanUtilizeCash targets cash) := by
  unfold CanUtilizeCash
  cases minPrice? targets with
  | none => exact inferInstance
  | some p => exact inferInstance

/-- The materiality gate: positive total funds, cash unable to buy
`MIN_ACTION_QUANTITY` shares of the cheapest target, and turnover below
`REBALANCING_THRESHOLD_PERCENT` of the total. -/
def GateFires (env : Env) (allocs : List PortfolioAlloc) (holdings : List HoldingRow)
    (cash : ℚ) : Prop :=
  0 < currentValueOf env holdings + cash ∧
  ¬ CanUtilizeCash (targetsOf env allocs holdings cash) cash ∧
  turnoverOf env allocs holdings cash / (currentValueOf env holdings + cash) * 100 <
    REBALANCING_THRESHOLD_PERCENT

instance decGateFires (env : Env) (allocs : List PortfolioAlloc)
    (holdings : List HoldingRow) (cash : ℚ) : Decidable (GateFires env allocs holdings cash) := by
  unfold GateFires
  infer_instance

/-- The returned `RebalancingCalculation` (without the strategy id, which is
fixed throughout). -/
structure RebalancingCalculation where
  currentValue : ℚ
  targetValue : ℚ
  actions : List RebAction
deriving Repr, DecidableEq

/-- `calculate_rebalancing(db, strategy_id)`: generate candidate actions,
apply the materiality gate (returning a zero-action result and persisting
nothing when it fires), otherwise persist a new pending record when any
actions remain.  Returns the calculation and the updated record store. -/
def calculateRebalancing (env : Env) (allocs : List PortfolioAlloc)
    (holdings : List HoldingRow) (cash : ℚ) (records : List Record) :
    RebalancingCalculation × List Record :=
  if GateFires env allocs holdings cash then
    (⟨currentValueOf env holdings, entriesSpent (targetsOf env allocs holdings cash), []⟩,
      records)
  else if candidateActions env allocs holdings cash = [] then
    (⟨currentValueOf env holdings, entriesSpent (targetsOf env allocs holdings cash),
        candidateActions env allocs holdings cash⟩,
      records)
  else
    (⟨currentValueOf env holdings, entriesSpent (targetsOf env allocs holdings cash),
        candidateActions env allocs holdings cash⟩,
      records ++ [⟨records.length,
        (candidateActions env allocs holdings cash).map RebAction.toRecAction,
        false, false⟩])

/-- C4: every sell action returned by the generator either satisfies both
minimum thresholds, or is a full-exit sell of a security that is held but
absent from the target allocations, emitted for the entire aggregated current
quantity. -/
theorem C4_sell_action_thresholds (env : Env) (allocs : List PortfolioAlloc)
    (holdings : List HoldingRow) (cash : ℚ) (records : List Record) :
    ∀ a ∈ (calculateRebalancing env allocs holdings cash records).1.actions,
      a.action = ActionKind.sell →
      (MIN_ACTION_QUANTITY ≤ a.quantity ∧ MIN_ACTION_VALUE ≤ a.totalAmount) ∨
      ((∀ e ∈ targetsOf env allocs holdings cash, e.stockId ≠ a.stockId) ∧
       ∃ c ∈ currentHoldingsAgg env holdings,
         c.stockId = a.stockId ∧ a.quantity = c.quantity) := by
  intro a ha hsell
  have hmem : a ∈ candidateActions env allocs holdings cash := by
    unfold calculateRebalancing at ha
    split_ifs at ha
    · exact absurd ha (List.not_mem_nil a)
    · exact ha
    · exact ha
  unfold candidateActions at hmem
  rcases List.mem_append.mp hmem with hd | hr
  · rcases List.mem_filterMap.mp hd with ⟨e, he, hda⟩
    left
    simp only [diffAction] at hda
    split_ifs at hda with h1 h2 h3 h4
    · rw [← Option.some_inj.mp hda] at hsell
      exact ActionKind.noConfusion hsell
    · rw [← Option.some_inj.mp hda]
      exact ⟨h4.1, h4.2⟩
  · rcases List.mem_filterMap.mp hr with ⟨c, hc, hcs⟩
    right
    by_cases ht : MemTargets (targetsOf env allocs holdings cash) c.stockId
    · rw [if_pos ht] at hcs
      exact absurd hcs (by simp)
    · rw [if_neg ht] at hcs
      have haeq : a = ⟨.sell, c.stockId, c.quantity, c.price, (c.quantity : ℚ) * c.price⟩ :=
        (Option.some_inj.mp hcs).symm
      subst haeq
      refine ⟨?_, c, hc, rfl, rfl⟩
      intro e he heq
      exact ht ⟨e, he, heq⟩

/-- C5: when total funds are positive, remaining cash cannot buy
`MIN_ACTION_QUANTITY` shares of the cheapest target (or there is no target),
and the candidate turnover is below the threshold percentage,
`calculate_rebalancing` returns an empty action list and leaves the record
store unchanged. -/
theorem C5_materiality_gate (env : Env) (allocs : List PortfolioAlloc)
    (holdings : List HoldingRow) (cash : ℚ) (records : List Record)
    (htotal : 0 < currentValueOf env holdings + cash)
    (hcheap : ∀ p, minPrice? (targetsOf env allocs holdings cash) = some p →
      cash / (MIN_ACTION_QUANTITY : ℚ) < p)
    (hturn : turnoverOf env allocs holdings cash /
        (currentValueOf env holdings + cash) * 100 < REBALANCING_THRESHOLD_PERCENT) :
    (calculateRebalancing env allocs holdings cash records).1.actions = [] ∧
    (calculateRebalancing env allocs holdings cash records).2 = records := by
  have hcu : ¬ CanUtilizeCash (targetsOf env allocs holdings cash) cash := by
    unfold CanUtilizeCash
    cases hm : minPrice? (targetsOf env allocs holdings cash) with
    | none => exact id
    | some p =>
      intro hle
      have hp := hcheap p hm
      rw [div_lt_iff₀ (by norm_num [MIN_ACTION_QUANTITY] : (0 : ℚ) < (MIN_ACTION_QUANTITY : ℚ))] at hp
      have : (MIN_ACTION_QUANTITY : ℚ) = 5 := by norm_num [MIN_ACTION_QUANTITY]
      rw [this] at hp
      have hle5 : p * 5 ≤ cash := by
        have h5 : ((MIN_ACTION_QUANTITY : ℤ) : ℚ) = 5 := by norm_num [MIN_ACTION_QUANTITY]
        rw [h5] at hle
        exact hle
      linarith
  have hg : GateFires env allocs holdings cash := ⟨htotal, hcu, hturn⟩
  unfold calculateRebalancing
  rw [if_pos hg]
  exact ⟨rfl, rfl⟩

/-- Environment for the C4 witness: stocks 1 and 2, both priced 100. -/
def envW4 : Env where
  portfolioExists := fun _ => true
  price := fun sid => if sid = 1 then some 100 else if sid = 2 then some 100 else none

/-- Allocations for the C4 witness: one portfolio at 100 %, stocks 1/2 at
50/50. -/
def allocsW4 : List PortfolioAlloc :=
  [⟨1, 100, [⟨1, 50⟩, ⟨2, 50⟩]⟩]

/-- Holdings for the C4 witness: 200 shares of stock 1. -/
def holdingsW4 : List HoldingRow :=
  [⟨1, 200, 90, 18000⟩]

theorem targetsW4_eval : targetsOf envW4 allocsW4 holdingsW4 0 =
    [⟨1, 100, 100, 10000⟩, ⟨2, 100, 100, 10000⟩] := by
  norm_num [targetsOf, currentValueOf, joinedHoldings, calcTargetAllocations, entriesSpent,
    floorStage, floorPortfolio, floorStock, upsertEntry, envW4, allocsW4, holdingsW4,
    sortByPrice, insertByPrice, minPrice?, greedyFuel, greedyLoop, greedyPass, Int.toNat,
    List.filterMap_cons]

theorem cvW4_eval : currentValueOf envW4 holdingsW4 = 20000 := by
  norm_num [currentValueOf, joinedHoldings, envW4, holdingsW4, List.filterMap_cons]

theorem aggW4_eval : currentHoldingsAgg envW4 holdingsW4 = [⟨1, 200, 100⟩] := by
  norm_num [currentHoldingsAgg, joinedHoldings, upsertCurrent, envW4, holdingsW4,
    List.filterMap_cons]

theorem candW4_eval : candidateActions envW4 allocsW4 holdingsW4 0 =
    [⟨.sell, 1, 100, 100, 10000⟩, ⟨.buy, 2, 100, 100, 10000⟩] := by
  have hcu : ¬ CashUtilization envW4 holdingsW4 0 := by
    rw [CashUtilization, cvW4_eval]
    norm_num
  rw [candidateActions, targetsW4_eval, aggW4_eval]
  norm_num [diffAction, removalSells, lookupCurrentQty, MemTargets, MIN_ACTION_QUANTITY,
    MIN_ACTION_VALUE, hcu, List.filterMap_cons]

theorem gateW4_off : ¬ GateFires envW4 allocsW4 holdingsW4 0 := by
  rintro ⟨-, -, h3⟩
  rw [turnoverOf, candW4_eval, cvW4_eval] at h3
  norm_num [REBALANCING_THRESHOLD_PERCENT] at h3

theorem resultW4_actions : (calculateRebalancing envW4 allocsW4 holdingsW4 0 []).1.actions =
    [⟨.sell, 1, 100, 100, 10000⟩, ⟨.buy, 2, 100, 100, 10000⟩] := by
  unfold calculateRebalancing
  rw [if_neg gateW4_off, candW4_eval]
  rw [if_neg (List.cons_ne_nil _ _)]

/-- Witness for C4: the sell of 100 shares of stock 1 generated on the W4
state satisfies both minimum thresholds. -/
theorem C4_sell_action_thresholds_witness :
    MIN_ACTION_QUANTITY ≤ (100 : ℤ) ∧ MIN_ACTION_VALUE ≤ (10000 : ℚ) := by
  have hmem : (⟨.sell, 1, 100, 100, 10000⟩ : RebAction) ∈
      (calculateRebalancing envW4 allocsW4 holdingsW4 0 []).1.actions := by
    rw [resultW4_actions]
    exact List.mem_cons_self _ _
  rcases C4_sell_action_thresholds envW4 allocsW4 holdingsW4 0 [] _ hmem rfl with h | ⟨habs, -⟩
  · exact h
  · exfalso
    have h1 : (⟨1, 100, 100, 10000⟩ : TargetEntry) ∈ targetsOf envW4 allocsW4 holdingsW4 0 := by
      rw [targetsW4_eval]
      exact List.mem_cons_self _ _
    exact habs _ h1 rfl

/-- Environment for the C5 witness: stock 1 priced 100. -/
def envW5 : Env where
  portfolioExists := fun _ => true
  price := fun sid => if sid = 1 then some 100 else none

/-- Allocations for the C5 witness: one portfolio at 100 %, stock 1 at
100 %. -/
def allocsW5 : List PortfolioAlloc :=
  [⟨1, 100, [⟨1, 100⟩]⟩]

/-- Holdings for the C5 witness: 100 shares of stock 1, no cash. -/
def holdingsW5 : List HoldingRow :=
  [⟨1, 100, 90, 9000⟩]

theorem cvW5_eval : currentValueOf envW5 holdingsW5 = 10000 := by
  norm_num [currentValueOf, joinedHoldings, envW5, holdingsW5, List.filterMap_cons]

theorem targetsW5_eval : targetsOf envW5 allocsW5 holdingsW5 0 = [⟨1, 100, 100, 10000⟩] := by
  norm_num [targetsOf, currentValueOf, joinedHoldings, calcTargetAllocations, entriesSpent,
    floorStage, floorPortfolio, floorStock, upsertEntry, envW5, allocsW5, holdingsW5,
    sortByPrice, insertByPrice, minPrice?, greedyFuel, greedyLoop, greedyPass, Int.toNat,
    List.filterMap_cons]

theorem aggW5_eval : currentHoldingsAgg envW5 holdingsW5 = [⟨1, 100, 100⟩] := by
  norm_num [currentHoldingsAgg, joinedHoldings, upsertCurrent, envW5, holdingsW5,
    List.filterMap_cons]

theorem candW5_eval : candidateActions envW5 allocsW5 holdingsW5 0 = [] := by
  have hcu : ¬ CashUtilization envW5 holdingsW5 0 := by
    rw [CashUtilization, cvW5_eval]
    norm_num
  rw [candidateActions, targetsW5_eval, aggW5_eval]
  norm_num [diffAction, removalSells, lookupCurrentQty, MemTargets, MIN_ACTION_QUANTITY,
    MIN_ACTION_VALUE, hcu, List.filterMap_cons]

/-- Witness for C5: on the W5 state (turnover 0, cash 0 below five shares of
the cheapest target) the generator returns no actions and persists
nothing. -/
theorem C5_materiality_gate_witness :
    (calculateRebalancing envW5 allocsW5 holdingsW5 0 []).1.actions = [] ∧
    (calculateRebalancing envW5 allocsW5 holdingsW5 0 []).2 = ([] : List Record) := by
  apply C5_materiality_gate
  · rw [cvW5_eval]
    norm_num
  · intro p hp
    rw [targetsW5_eval] at hp
    simp only [minPrice?] at hp
    rw [← Option.some_inj.mp hp]
    norm_num [MIN_ACTION_QUANTITY]
  · rw [turnoverOf, candW5_eval, cvW5_eval]
    norm_num [REBALANCING_THRESHOLD_PERCENT]

/-! ## The execution / undo state machine -/

/-- `stock_id` has at least one holding row
(`holdings[0] if holdings else None` is not `None`). -/
def HasRow (sid : Nat) (l : List HoldingRow) : Prop :=
  ∃ h ∈ l, h.stockId = sid

instance decHasRow (sid : Nat) (l : List HoldingRow) : Decidable (HasRow sid l) := by
  unfold HasRow
  infer_instance

/-- Buy applied to the holdings list: update the first row of the stock in
place, recomputing the weighted average cost and current value, or create a
new row (`db.add` appends). -/
def execBuyH (sid : Nat) (q : ℤ) (p : ℚ) : List HoldingRow → List HoldingRow
  | [] => [⟨sid, q, p, (q : ℚ) * p⟩]
  | h :: t =>
    if h.stockId = sid then
      { h with
        quantity := h.quantity + q,
        averagePrice := ((h.quantity : ℚ) * h.averagePrice + (q : ℚ) * p) /
          ((h.quantity + q : ℤ) : ℚ),
        currentValue := ((h.quantity + q : ℤ) : ℚ) * p } :: t
    else h :: execBuyH sid q p t

/-- Sell applied to the holdings list: subtract from the first row of the
stock, deleting it when the quantity falls to ≤ 0, else updating its current
value (`average_price` untouched). -/
def execSellH (sid : Nat) (q : ℤ) (p : ℚ) : List HoldingRow → List HoldingRow
  | [] => []
  | h :: t =>
    if h.stockId = sid then
      if h.quantity - q ≤ 0 then t
      else { h with quantity := h.quantity - q,
                    currentValue := ((h.quantity - q : ℤ) : ℚ) * p } :: t
    else h :: execSellH sid q p t

/-- One action of `execute_rebalancing` on `(holdings, cash_from_sales,
cash_for_purchases)`: a buy always debits and updates/creates a row; a sell
credits and updates only when a row exists. -/
def execStep : List HoldingRow × ℚ × ℚ → RecAction → List HoldingRow × ℚ × ℚ
  | (h, s, pch), a =>
    match a.action with
    | .buy => (execBuyH a.stockId a.quantity a.price h, s,
        pch + (a.quantity : ℚ) * a.price)
    | .sell =>
      if HasRow a.stockId h then
        (execSellH a.stockId a.quantity a.price h, s + (a.quantity : ℚ) * a.price, pch)
      else (h, s, pch)

/-- One action of `undo_rebalancing`: an original buy is reversed as a sell
(cash credited unconditionally, row decreased/deleted if present); an
original sell is reversed as a buy (cash debited unconditionally, row
updated or recreated). -/
def undoStep : List HoldingRow × ℚ × ℚ → RecAction → List HoldingRow × ℚ × ℚ
  | (h, s, pch), a =>
    match a.action with
    | .buy => (execSellH a.stockId a.quantity a.price h,
        s + (a.quantity : ℚ) * a.price, pch)
    | .sell => (execBuyH a.stockId a.quantity a.price h, s,
        pch + (a.quantity : ℚ) * a.price)

/-- The action loop of `execute_rebalancing`. -/
def execFold (actions : List RecAction) (st : List HoldingRow × ℚ × ℚ) :
    List HoldingRow × ℚ × ℚ :=
  actions.foldl execStep st

/-- The action loop of `undo_rebalancing`. -/
def undoFold (actions : List RecAction) (st : List HoldingRow × ℚ × ℚ) :
    List HoldingRow × ℚ × ℚ :=
  actions.foldl undoStep st

/-- The most recently created record with `executed == False`
(`order_by(created_at.desc()).limit(1)`; list position is creation order). -/
def lastPending : List Record → Option Record
  | [] => none
  | r :: rest =>
    match lastPending rest with
    | some r' => some r'
    | none => if r.executed then none else some r

/-- Set `executed = True` on the record `lastPending` selects. -/
def markLastPending : List Record → List Record
  | [] => []
  | r :: rest =>
    match lastPending rest with
    | some _ => r :: markLastPending rest
    | none => if r.executed then r :: rest else { r with executed := true } :: rest

/-- The per-strategy persisted state the state machine mutates. -/
structure EngineState where
  holdings : List HoldingRow
  remainingCash : ℚ
  records : List Record
deriving Repr, DecidableEq

/-- `execute_rebalancing(db, strategy_id)`: apply the latest pending record's
actions to holdings, adjust `remaining_cash` by sales minus purchases, and
flag the record executed; a silent no-op when no pending record exists. -/
def executeRebalancing (s : EngineState) : EngineState :=
  match lastPending s.records with
  | none => s
  | some r =>
    let res := execFold r.actions (s.holdings, 0, 0)
    ⟨res.1, s.remainingCash + (res.2.1 - res.2.2), markLastPending s.records⟩

/-- Typed failures of `undo_rebalancing` (each a `ValueError` in Python). -/
inductive UndoError where
  | recordNotFound
  | notExecuted
  | alreadyUndone
deriving Repr, DecidableEq

/-- The InvalidState failures among `undo_rebalancing`'s errors. -/
def UndoError.isInvalidState : UndoError → Prop
  | .recordNotFound => False
  | .notExecuted => True
  | .alreadyUndone => True

/-- `select(RebalancingHistory).where(id == rebalancing_id)`. -/
def findRecord? (records : List Record) (rid : Nat) : Option Record :=
  match records with
  | [] => none
  | r :: rest => if r.id = rid then some r else findRecord? rest rid

/-- `undo_rebalancing(db, rebalancing_id)`: validate the record's state, then
reverse every action and flag the record undone.  All checks precede any
mutation, so an error leaves the state untouched. -/
def undoRebalancing (s : EngineState) (rid : Nat) : Except UndoError EngineState :=
  match findRecord? s.records rid with
  | none => .error .recordNotFound
  | some r =>
    if r.executed = false then .error .notExecuted
    else if r.undone = true then .error .alreadyUndone
    else
      let res := undoFold r.actions (s.holdings, 0, 0)
      .ok ⟨res.1, s.remainingCash + (res.2.1 - res.2.2),
        s.records.map (fun x => if x.id = rid then { x with undone := true } else x)⟩

/-- `undo_rebalancing` as observed by the caller: an error leaves the
persisted state exactly as it was (the Python code raises before any
mutation). -/
def runUndo (s : EngineState) (rid : Nat) : EngineState × Option UndoError :=
  match undoRebalancing s rid with
  | .ok s' => (s', none)
  | .error e => (s, some e)

/-- C7: undo fails with InvalidState iff the record exists but is not in the
`executed ∧ ¬undone` state, and any failure leaves the state exactly as it
was. -/
theorem C7_undo_invalid_state_iff (s : EngineState) (rid : Nat) :
    ((∃ e, (runUndo s rid).2 = some e ∧ e.isInvalidState) ↔
      (∃ r, findRecord? s.records rid = some r ∧
        ¬(r.executed = true ∧ r.undone = false))) ∧
    (∀ e, (runUndo s rid).2 = some e → (runUndo s rid).1 = s) := by
  cases hr : findRecord? s.records rid with
  | none =>
    constructor
    · constructor
      · rintro ⟨e, he, hinv⟩
        simp only [runUndo, undoRebalancing, hr] at he
        rw [← Option.some_inj.mp he] at hinv
        exact absurd hinv (by simp [UndoError.isInvalidState])
      · rintro ⟨r, hrr, -⟩
        exact absurd hrr (by simp)
    · intro e he
      simp [runUndo, undoRebalancing, hr]
  | some r =>
    cases hex : r.executed with
    | false =>
      constructor
      · constructor
        · intro _
          exact ⟨r, rfl, by simp [hex]⟩
        · intro _
          exact ⟨UndoError.notExecuted, by simp [runUndo, undoRebalancing, hr, hex], trivial⟩
      · intro e he
        simp [runUndo, undoRebalancing, hr, hex]
    | true =>
      cases hun : r.undone with
      | true =>
        constructor
        · constructor
          · intro _
            exact ⟨r, rfl, by simp [hun]⟩
          · intro _
            exact ⟨UndoError.alreadyUndone,
              by simp [runUndo, undoRebalancing, hr, hex, hun], trivial⟩
        · intro e he
          simp [runUndo, undoRebalancing, hr, hex, hun]
      | false =>
        constructor
        · constructor
          · rintro ⟨e, he, -⟩
            simp [runUndo, undoRebalancing, hr, hex, hun] at he
          · rintro ⟨r', hrr, hbad⟩
            rw [← Option.some_inj.mp hrr] at hbad
            exact absurd ⟨hex, hun⟩ hbad
        · intro e he
          simp [runUndo, undoRebalancing, hr, hex, hun] at he

/-! ## Round-trip analysis of execute followed by undo (C6) -/

/-- The holding rows of one stock, in order (`select(Holding).where(stock_id
== ...)`; the Python code's representative row is the head). -/
def sRows (sid : Nat) : List HoldingRow → List HoldingRow
  | [] => []
  | h :: t => if h.stockId = sid then h :: sRows sid t else sRows sid t

/-- Total quantity of a list of holding rows. -/
def qtySum (l : List HoldingRow) : ℤ :=
  (l.map (·.quantity)).sum

/-- Aggregate held quantity of one stock across all its rows. -/
def aggQty (sid : Nat) (l : List HoldingRow) : ℤ :=
  qtySum (sRows sid l)

/-- The holdings component of one `execute_rebalancing` action. -/
def execStepH (h : List HoldingRow) (a : RecAction) : List HoldingRow :=
  match a.action with
  | .buy => execBuyH a.stockId a.quantity a.price h
  | .sell => if HasRow a.stockId h then execSellH a.stockId a.quantity a.price h else h

/-- The holdings component of one `undo_rebalancing` action. -/
def undoStepH (h : List HoldingRow) (a : RecAction) : List HoldingRow :=
  match a.action with
  | .buy => execSellH a.stockId a.quantity a.price h
  | .sell => execBuyH a.stockId a.quantity a.price h

/-- Holdings component of the execute action loop. -/
def execFoldH (actions : List RecAction) (h : List HoldingRow) : List HoldingRow :=
  actions.foldl execStepH h

/-- Holdings component of the undo action loop. -/
def undoFoldH (actions : List RecAction) (h : List HoldingRow) : List HoldingRow :=
  actions.foldl undoStepH h

/-- Total value of the buy actions of a record. -/
def buysTotal : List RecAction → ℚ
  | [] => 0
  | a :: rest =>
    (match a.action with
      | .buy => (a.quantity : ℚ) * a.price
      | .sell => 0) + buysTotal rest

/-- Total value of the sell actions of a record. -/
def sellsTotal : List RecAction → ℚ
  | [] => 0
  | a :: rest =>
    (match a.action with
      | .buy => 0
      | .sell => (a.quantity : ℚ) * a.price) + sellsTotal rest

theorem mem_sRows (sid : Nat) (l : List HoldingRow) :
    ∀ x ∈ sRows sid l, x ∈ l ∧ x.stockId = sid := by
  induction l with
  | nil => intro x hx; cases hx
  | cons h t ih =>
    intro x hx
    by_cases hm : h.stockId = sid
    · rw [sRows, if_pos hm] at hx
      rcases List.mem_cons.mp hx with hx | hx
      · subst hx
        exact ⟨List.mem_cons_self _ _, hm⟩
      · rcases ih x hx with ⟨h1, h2⟩
        exact ⟨List.mem_cons_of_mem _ h1, h2⟩
    · rw [sRows, if_neg hm] at hx
      rcases ih x hx with ⟨h1, h2⟩
      exact ⟨List.mem_cons_of_mem _ h1, h2⟩

theorem hasRow_iff (sid : Nat) (l : List HoldingRow) :
    HasRow sid l ↔ sRows sid l ≠ [] := by
  induction l with
  | nil => simp [HasRow, sRows]
  | cons h t ih =>
    by_cases hm : h.stockId = sid
    · simp only [sRows, if_pos hm]
      constructor
      · intro _; exact List.cons_ne_nil _ _
      · intro _; exact ⟨h, List.mem_cons_self _ _, hm⟩
    · simp only [sRows, if_neg hm]
      rw [← ih]
      constructor
      · rintro ⟨x, hx, hxs⟩
        rcases List.mem_cons.mp hx with hx | hx
        · exact absurd (hx ▸ hxs) hm
        · exact ⟨x, hx, hxs⟩
      · rintro ⟨x, hx, hxs⟩
        exact ⟨x, List.mem_cons_of_mem _ hx, hxs⟩

theorem sRows_execBuyH_ne (sid t : Nat) (q : ℤ) (p : ℚ) (hne : sid ≠ t) :
    ∀ l, sRows t (execBuyH sid q p l) = sRows t l := by
  intro l
  induction l with
  | nil => simp [execBuyH, sRows, hne]
  | cons h rest ih =>
    by_cases hm : h.stockId = sid
    · rw [execBuyH, if_pos hm]
      have hnt : ¬(h.stockId = t) := by rw [hm]; exact hne
      rw [sRows, sRows, if_neg hnt, if_neg hnt]
    · rw [execBuyH, if_neg hm]
      by_cases ht : h.stockId = t
      · rw [sRows, sRows, if_pos ht, if_pos ht, ih]
      · rw [sRows, sRows, if_neg ht, if_neg ht, ih]

theorem sRows_execBuyH_self (sid : Nat) (q : ℤ) (p : ℚ) :
    ∀ l, sRows sid (execBuyH sid q p l) = execBuyH sid q p (sRows sid l) := by
  intro l
  induction l with
  | nil => simp [execBuyH, sRows]
  | cons h rest ih =>
    by_cases hm : h.stockId = sid
    · rw [execBuyH, if_pos hm, sRows, if_pos hm, sRows, if_pos hm, execBuyH, if_pos hm]
    · rw [execBuyH, if_neg hm, sRows, if_neg hm, sRows, if_neg hm, ih]

theorem sRows_execSellH_ne (sid t : Nat) (q : ℤ) (p : ℚ) (hne : sid ≠ t) :
    ∀ l, sRows t (execSellH sid q p l) = sRows t l := by
  intro l
  induction l with
  | nil => simp [execSellH, sRows]
  | cons h rest ih =>
    by_cases hm : h.stockId = sid
    · rw [execSellH, if_pos hm]
      have hnt : ¬(h.stockId = t) := by rw [hm]; exact hne
      by_cases hdel : h.quantity - q ≤ 0
      · rw [if_pos hdel, sRows, if_neg hnt]
      · rw [if_neg hdel, sRows, sRows, if_neg hnt, if_neg hnt]
    · rw [execSellH, if_neg hm]
      by_cases ht : h.stockId = t
      · rw [sRows, sRows, if_pos ht, if_pos ht, ih]
      · rw [sRows, sRows, if_neg ht, if_neg ht, ih]

theorem sRows_execSellH_self (sid : Nat) (q : ℤ) (p : ℚ) :
    ∀ l, sRows sid (execSellH sid q p l) = execSellH sid q p (sRows sid l) := by
  intro l
  induction l with
  | nil => simp [execSellH, sRows]
  | cons h rest ih =>
    by_cases hm : h.stockId = sid
    · rw [execSellH, if_pos hm, sRows, if_pos hm, execSellH, if_pos hm]
      by_cases hdel : h.quantity - q ≤ 0
      · rw [if_pos hdel, if_pos hdel]
      · rw [if_neg hdel, if_neg hdel, sRows, if_pos hm]
    · rw [execSellH, if_neg hm, sRows, if_neg hm, sRows, if_neg hm, ih]

theorem sRows_execStepH_ne (a : RecAction) (t : Nat) (hne : a.stockId ≠ t)
    (h : List HoldingRow) : sRows t (execStepH h a) = sRows t h := by
  cases ha : a.action with
  | buy => rw [execStepH, ha]; exact sRows_execBuyH_ne _ _ _ _ hne h
  | sell =>
    rw [execStepH, ha]
    by_cases hr : HasRow a.stockId h
    · rw [if_pos hr]; exact sRows_execSellH_ne _ _ _ _ hne h
    · rw [if_neg hr]

theorem sRows_undoStepH_ne (a : RecAction) (t : Nat) (hne : a.stockId ≠ t)
    (h : List HoldingRow) : sRows t (undoStepH h a) = sRows t h := by
  cases ha : a.action with
  | buy => rw [undoStepH, ha]; exact sRows_execSellH_ne _ _ _ _ hne h
  | sell => rw [undoStepH, ha]; exact sRows_execBuyH_ne _ _ _ _ hne h

/-- The unconditioned row transform of one action (the conditional of
`execStepH` is immaterial at filter level, since selling with no matching
row is a no-op). -/
def stepCore (h : List HoldingRow) (a : RecAction) : List HoldingRow :=
  match a.action with
  | .buy => execBuyH a.stockId a.quantity a.price h
  | .sell => execSellH a.stockId a.quantity a.price h

theorem sRows_execStepH_self (a : RecAction) (h : List HoldingRow) :
    sRows a.stockId (execStepH h a) = stepCore (sRows a.stockId h) a := by
  cases ha : a.action with
  | buy =>
    rw [execStepH, ha, stepCore, ha]
    exact sRows_execBuyH_self _ _ _ h
  | sell =>
    rw [execStepH, ha, stepCore, ha]
    by_cases hr : HasRow a.stockId h
    · rw [if_pos hr]
      exact sRows_execSellH_self _ _ _ h
    · rw [if_neg hr]
      have hnil : sRows a.stockId h = [] := by
        by_contra hne
        exact hr ((hasRow_iff _ _).mpr hne)
      rw [hnil, execSellH]

theorem sRows_undoStepH_self (a : RecAction) (h : List HoldingRow) :
    sRows a.stockId (undoStepH h a) = undoStepH (sRows a.stockId h) a := by
  cases ha : a.action with
  | buy =>
    rw [undoStepH, ha, undoStepH, ha]
    exact sRows_execSellH_self _ _ _ h
  | sell =>
    rw [undoStepH, ha, undoStepH, ha]
    exact sRows_execBuyH_self _ _ _ h

theorem sRows_execFoldH_not_mem (acts : List RecAction) :
    ∀ (h : List HoldingRow) (sid : Nat), sid ∉ acts.map (·.stockId) →
      sRows sid (execFoldH acts h) = sRows sid h := by
  induction acts with
  | nil => intro h sid _; rfl
  | cons a rest ih =>
    intro h sid hniq
    have hne : a.stockId ≠ sid := by
      intro hh
      exact hniq (by rw [List.map_cons, hh]; exact List.mem_cons_self _ _)
    have hrest : sid ∉ rest.map (·.stockId) := by
      intro hh
      exact hniq (by rw [List.map_cons]; exact List.mem_cons_of_mem _ hh)
    show sRows sid (execFoldH rest (execStepH h a)) = sRows sid h
    rw [ih _ _ hrest, sRows_execStepH_ne a sid hne]

theorem sRows_undoFoldH_not_mem (acts : List RecAction) :
    ∀ (h : List HoldingRow) (sid : Nat), sid ∉ acts.map (·.stockId) →
      sRows sid (undoFoldH acts h) = sRows sid h := by
  induction acts with
  | nil => intro h sid _; rfl
  | cons a rest ih =>
    intro h sid hniq
    have hne : a.stockId ≠ sid := by
      intro hh
      exact hniq (by rw [List.map_cons, hh]; exact List.mem_cons_self _ _)
    have hrest : sid ∉ rest.map (·.stockId) := by
      intro hh
      exact hniq (by rw [List.map_cons]; exact List.mem_cons_of_mem _ hh)
    show sRows sid (undoFoldH rest (undoStepH h a)) = sRows sid h
    rw [ih _ _ hrest, sRows_undoStepH_ne a sid hne]

theorem sRows_undoFoldH_det (acts : List RecAction) :
    ∀ (l₁ l₂ : List HoldingRow) (sid : Nat), sRows sid l₁ = sRows sid l₂ →
      sRows sid (undoFoldH acts l₁) = sRows sid (undoFoldH acts l₂) := by
  induction acts with
  | nil => intro l₁ l₂ sid h; exact h
  | cons a rest ih =>
    intro l₁ l₂ sid h
    show sRows sid (undoFoldH rest (undoStepH l₁ a)) =
      sRows sid (undoFoldH rest (undoStepH l₂ a))
    apply ih
    by_cases hsa : a.stockId = sid
    · subst hsa
      rw [sRows_undoStepH_self, sRows_undoStepH_self, h]
    · rw [sRows_undoStepH_ne a sid hsa, sRows_undoStepH_ne a sid hsa, h]

theorem execBuyH_qtySum (sid : Nat) (q : ℤ) (p : ℚ) :
    ∀ l : List HoldingRow, (∀ x ∈ l, x.stockId = sid) →
      qtySum (execBuyH sid q p l) = qtySum l + q := by
  intro l
  induction l with
  | nil => intro _; simp [execBuyH, qtySum]
  | cons h t ih =>
    intro hall
    have hm : h.stockId = sid := hall h (List.mem_cons_self _ _)
    rw [execBuyH, if_pos hm]
    simp only [qtySum, List.map_cons, List.sum_cons]
    ring

/-- Round trip of a single buy action on the rows of its own stock: a later
sell of the same quantity at the same price restores the total quantity,
provided pre-existing rows are nonnegative. -/
theorem buy_roundtrip (sid : Nat) (q : ℤ) (p : ℚ) (m : List HoldingRow)
    (hall : ∀ x ∈ m, x.stockId = sid) (hnn : ∀ x ∈ m, 0 ≤ x.quantity) :
    qtySum (execSellH sid q p (execBuyH sid q p m)) = qtySum m := by
  cases m with
  | nil =>
    rw [execBuyH, execSellH]
    rw [if_pos rfl, if_pos (by simp)]
  | cons h t =>
    have hm : h.stockId = sid := hall h (List.mem_cons_self _ _)
    have hq : 0 ≤ h.quantity := hnn h (List.mem_cons_self _ _)
    rw [execBuyH, if_pos hm, execSellH, if_pos hm]
    by_cases hdel : h.quantity + q - q ≤ 0
    · rw [if_pos hdel]
      have hz : h.quantity = 0 := by omega
      simp only [qtySum, List.map_cons, List.sum_cons, hz, zero_add]
    · rw [if_neg hdel]
      simp only [qtySum, List.map_cons, List.sum_cons]
      ring

/-- Round trip of a single sell action on the rows of its own stock: when the
first row holds at least the sold quantity, buying the quantity back restores
the total. -/
theorem sell_roundtrip (sid : Nat) (q : ℤ) (p : ℚ) (m : List HoldingRow)
    (hall : ∀ x ∈ m, x.stockId = sid)
    (hhead : ∃ hr, m.head? = some hr ∧ q ≤ hr.quantity) :
    qtySum (execBuyH sid q p (execSellH sid q p m)) = qtySum m := by
  obtain ⟨hr, hh, hq⟩ := hhead
  cases m with
  | nil => cases hh
  | cons h t =>
    have hhr : h = hr := by
      simpa using hh
    subst hhr
    have hm : h.stockId = sid := hall h (List.mem_cons_self _ _)
    have hallt : ∀ x ∈ t, x.stockId = sid := fun x hx => hall x (List.mem_cons_of_mem _ hx)
    rw [execSellH, if_pos hm]
    by_cases hdel : h.quantity - q ≤ 0
    · rw [if_pos hdel]
      have hqe : q = h.quantity := by omega
      rw [execBuyH_qtySum sid q p t hallt]
      simp only [qtySum, List.map_cons, List.sum_cons]
      omega
    · rw [if_neg hdel, execBuyH, if_pos hm]
      simp only [qtySum, List.map_cons, List.sum_cons]
      ring

theorem execStep_fst (st : List HoldingRow × ℚ × ℚ) (a : RecAction) :
    (execStep st a).1 = execStepH st.1 a := by
  obtain ⟨h, s, p⟩ := st
  cases ha : a.action with
  | buy => simp [execStep, execStepH, ha]
  | sell =>
    by_cases hr : HasRow a.stockId h
    · simp [execStep, execStepH, ha, hr]
    · simp [execStep, execStepH, ha, hr]

theorem undoStep_fst (st : List HoldingRow × ℚ × ℚ) (a : RecAction) :
    (undoStep st a).1 = undoStepH st.1 a := by
  obtain ⟨h, s, p⟩ := st
  cases ha : a.action with
  | buy => simp [undoStep, undoStepH, ha]
  | sell => simp [undoStep, undoStepH, ha]

theorem execFold_fst (acts : List RecAction) :
    ∀ st : List HoldingRow × ℚ × ℚ, (execFold acts st).1 = execFoldH acts st.1 := by
  induction acts with
  | nil => intro st; rfl
  | cons a rest ih =>
    intro st
    show (execFold rest (execStep st a)).1 = execFoldH rest (execStepH st.1 a)
    rw [ih, execStep_fst]

theorem undoFold_fst (acts : List RecAction) :
    ∀ st : List HoldingRow × ℚ × ℚ, (undoFold acts st).1 = undoFoldH acts st.1 := by
  induction acts with
  | nil => intro st; rfl
  | cons a rest ih =>
    intro st
    show (undoFold rest (undoStep st a)).1 = undoFoldH rest (undoStepH st.1 a)
    rw [ih, undoStep_fst]

theorem undoFold_cash (acts : List RecAction) :
    ∀ (h : List HoldingRow) (s p : ℚ),
      (undoFold acts (h, s, p)).2.1 = s + buysTotal acts ∧
      (undoFold acts (h, s, p)).2.2 = p + sellsTotal acts := by
  induction acts with
  | nil =>
    intro h s p
    constructor <;> simp [undoFold, buysTotal, sellsTotal]
  | cons a rest ih =>
    intro h s p
    cases ha : a.action with
    | buy =>
      have hstep : undoStep (h, s, p) a =
          (execSellH a.stockId a.quantity a.price h,
            s + (a.quantity : ℚ) * a.price, p) := by
        simp [undoStep, ha]
      have hb : buysTotal (a :: rest) = (a.quantity : ℚ) * a.price + buysTotal rest := by
        rw [buysTotal, ha]
      have hsl : sellsTotal (a :: rest) = 0 + sellsTotal rest := by
        rw [sellsTotal, ha]
      have hrec := ih (execSellH a.stockId a.quantity a.price h)
        (s + (a.quantity : ℚ) * a.price) p
      constructor
      · show (undoFold rest (undoStep (h, s, p) a)).2.1 = _
        rw [hstep, hrec.1, hb]
        ring
      · show (undoFold rest (undoStep (h, s, p) a)).2.2 = _
        rw [hstep, hrec.2, hsl]
        ring
    | sell =>
      have hstep : undoStep (h, s, p) a =
          (execBuyH a.stockId a.quantity a.price h, s,
            p + (a.quantity : ℚ) * a.price) := by
        simp [undoStep, ha]
      have hb : buysTotal (a :: rest) = 0 + buysTotal rest := by
        rw [buysTotal, ha]
      have hsl : sellsTotal (a :: rest) =
          (a.quantity : ℚ) * a.price + sellsTotal rest := by
        rw [sellsTotal, ha]
      have hrec := ih (execBuyH a.stockId a.quantity a.price h) s
        (p + (a.quantity : ℚ) * a.price)
      constructor
      · show (undoFold rest (undoStep (h, s, p) a)).2.1 = _
        rw [hstep, hrec.1, hb]
        ring
      · show (undoFold rest (undoStep (h, s, p) a)).2.2 = _
        rw [hstep, hrec.2, hsl]
        ring

theorem execFold_cash (acts : List RecAction) :
    ∀ (h : List HoldingRow) (s p : ℚ),
      (acts.map (·.stockId)).Nodup →
      (∀ a ∈ acts, a.action = ActionKind.sell → HasRow a.stockId h) →
      (execFold acts (h, s, p)).2.1 = s + sellsTotal acts ∧
      (execFold acts (h, s, p)).2.2 = p + buysTotal acts := by
  induction acts with
  | nil =>
    intro h s p _ _
    constructor <;> simp [execFold, buysTotal, sellsTotal]
  | cons a rest ih =>
    intro h s p hnd hrow
    rw [List.map_cons] at hnd
    have hnotin : a.stockId ∉ rest.map (·.stockId) := (List.nodup_cons.mp hnd).1
    have hndrest : (rest.map (·.stockId)).Nodup := (List.nodup_cons.mp hnd).2
    have hpres : ∀ (l' : List HoldingRow),
        (∀ t, a.stockId ≠ t → sRows t l' = sRows t h) →
        ∀ b ∈ rest, b.action = ActionKind.sell → HasRow b.stockId l' := by
      intro l' hl b hb hbs
      have hneq : a.stockId ≠ b.stockId := by
        intro heq
        exact hnotin (heq ▸ List.mem_map_of_mem _ hb)
      rw [hasRow_iff, hl _ hneq, ← hasRow_iff]
      exact hrow b (List.mem_cons_of_mem _ hb) hbs
    cases ha : a.action with
    | buy =>
      have hstep : execStep (h, s, p) a =
          (execBuyH a.stockId a.quantity a.price h, s,
            p + (a.quantity : ℚ) * a.price) := by
        simp [execStep, ha]
      have hb : buysTotal (a :: rest) = (a.quantity : ℚ) * a.price + buysTotal rest := by
        rw [buysTotal, ha]
      have hsl : sellsTotal (a :: rest) = 0 + sellsTotal rest := by
        rw [sellsTotal, ha]
      have hrow' := hpres (execBuyH a.stockId a.quantity a.price h)
        (fun t ht => sRows_execBuyH_ne a.stockId t _ _ ht h)
      have hrec := ih (execBuyH a.stockId a.quantity a.price h) s
        (p + (a.quantity : ℚ) * a.price) hndrest hrow'
      constructor
      · show (execFold rest (execStep (h, s, p) a)).2.1 = _
        rw [hstep, hrec.1, hsl]
        ring
      · show (execFold rest (execStep (h, s, p) a)).2.2 = _
        rw [hstep, hrec.2, hb]
        ring
    | sell =>
      have hr : HasRow a.stockId h := hrow a (List.mem_cons_self _ _) ha
      have hstep : execStep (h, s, p) a =
          (execSellH a.stockId a.quantity a.price h,
            s + (a.quantity : ℚ) * a.price, p) := by
        simp [execStep, ha, hr]
      have hb : buysTotal (a :: rest) = 0 + buysTotal rest := by
        rw [buysTotal, ha]
      have hsl : sellsTotal (a :: rest) =
          (a.quantity : ℚ) * a.price + sellsTotal rest := by
        rw [sellsTotal, ha]
      have hrow' := hpres (execSellH a.stockId a.quantity a.price h)
        (fun t ht => sRows_execSellH_ne a.stockId t _ _ ht h)
      have hrec := ih (execSellH a.stockId a.quantity a.price h)
        (s + (a.quantity : ℚ) * a.price) p hndrest hrow'
      constructor
      · show (execFold rest (execStep (h, s, p) a)).2.1 = _
        rw [hstep, hrec.1, hsl]
        ring
      · show (execFold rest (execStep (h, s, p) a)).2.2 = _
        rw [hstep, hrec.2, hb]
        ring

/-- Core of the execute-then-undo round trip: for records whose actions have
pairwise-distinct stock ids, whose sell actions are covered by the first
matching row, and whose affected rows are nonnegative, the aggregate
quantity of every affected stock is restored. -/
theorem roundtrip_agg (acts : List RecAction) :
    ∀ (h : List HoldingRow),
      (acts.map (·.stockId)).Nodup →
      (∀ a ∈ acts, a.action = ActionKind.sell →
        ∃ hr, (sRows a.stockId h).head? = some hr ∧ a.quantity ≤ hr.quantity) →
      (∀ a ∈ acts, ∀ x ∈ sRows a.stockId h, 0 ≤ x.quantity) →
      ∀ b ∈ acts,
        aggQty b.stockId (undoFoldH acts (execFoldH acts h)) = aggQty b.stockId h := by
  induction acts with
  | nil => intro h _ _ _ b hb; cases hb
  | cons a rest ih =>
    intro h hnd hsell hnn b hb
    rw [List.map_cons] at hnd
    have hnotin : a.stockId ∉ rest.map (·.stockId) := (List.nodup_cons.mp hnd).1
    have hndrest : (rest.map (·.stockId)).Nodup := (List.nodup_cons.mp hnd).2
    rcases List.mem_cons.mp hb with hba | hbr
    · subst hba
      show aggQty b.stockId
        (undoFoldH rest (undoStepH (execFoldH rest (execStepH h b)) b)) = aggQty b.stockId h
      unfold aggQty
      rw [sRows_undoFoldH_not_mem rest _ _ hnotin, sRows_undoStepH_self,
        sRows_execFoldH_not_mem rest _ _ hnotin, sRows_execStepH_self]
      have hall : ∀ x ∈ sRows b.stockId h, x.stockId = b.stockId :=
        fun x hx => (mem_sRows _ _ x hx).2
      cases hba : b.action with
      | buy =>
        rw [stepCore, hba, undoStepH, hba]
        exact buy_roundtrip _ _ _ _ hall (hnn b (List.mem_cons_self _ _))
      | sell =>
        rw [stepCore, hba, undoStepH, hba]
        exact sell_roundtrip _ _ _ _ hall (hsell b (List.mem_cons_self _ _) hba)
    · have hbne : a.stockId ≠ b.stockId := by
        intro heq
        exact hnotin (heq ▸ List.mem_map_of_mem _ hbr)
      show aggQty b.stockId
        (undoFoldH rest (undoStepH (execFoldH rest (execStepH h a)) a)) = aggQty b.stockId h
      unfold aggQty
      have hdet := sRows_undoFoldH_det rest
        (undoStepH (execFoldH rest (execStepH h a)) a)
        (execFoldH rest (execStepH h a)) b.stockId
        (sRows_undoStepH_ne a b.stockId hbne _)
      rw [hdet]
      have hsell' : ∀ a' ∈ rest, a'.action = ActionKind.sell →
          ∃ hr, (sRows a'.stockId (execStepH h a)).head? = some hr ∧
            a'.quantity ≤ hr.quantity := by
        intro a' ha' hs'
        have hne : a.stockId ≠ a'.stockId := by
          intro heq
          exact hnotin (heq ▸ List.mem_map_of_mem _ ha')
        rw [sRows_execStepH_ne a _ hne]
        exact hsell a' (List.mem_cons_of_mem _ ha') hs'
      have hnn' : ∀ a' ∈ rest, ∀ x ∈ sRows a'.stockId (execStepH h a), 0 ≤ x.quantity := by
        intro a' ha' x hx
        have hne : a.stockId ≠ a'.stockId := by
          intro heq
          exact hnotin (heq ▸ List.mem_map_of_mem _ ha')
        rw [sRows_execStepH_ne a _ hne] at hx
        exact hnn a' (List.mem_cons_of_mem _ ha') x hx
      have hih := ih (execStepH h a) hndrest hsell' hnn' b hbr
      unfold aggQty at hih
      rw [hih, sRows_execStepH_ne a _ hbne]

theorem lastPending_mem (rs : List Record) (r : Record)
    (h : lastPending rs = some r) : r ∈ rs := by
  induction rs with
  | nil => cases h
  | cons x rest ih =>
    cases hrest : lastPending rest with
    | some r' =>
      rw [lastPending, hrest] at h
      have : r' = r := Option.some_inj.mp h
      subst this
      exact List.mem_cons_of_mem _ (ih hrest)
    | none =>
      rw [lastPending, hrest] at h
      by_cases hex : x.executed
      · rw [if_pos hex] at h
        cases h
      · rw [if_neg hex] at h
        have : x = r := Option.some_inj.mp h
        subst this
        exact List.mem_cons_self _ _

theorem findRecord_mark (rs : List Record) (r : Record)
    (hl : lastPending rs = some r) (hnd : (rs.map (·.id)).Nodup) :
    findRecord? (markLastPending rs) r.id = some { r with executed := true } := by
  induction rs with
  | nil => cases hl
  | cons x rest ih =>
    rw [List.map_cons] at hnd
    have hxnotin : x.id ∉ rest.map (·.id) := (List.nodup_cons.mp hnd).1
    have hndrest : (rest.map (·.id)).Nodup := (List.nodup_cons.mp hnd).2
    cases hrest : lastPending rest with
    | some r' =>
      rw [lastPending, hrest] at hl
      have : r' = r := Option.some_inj.mp hl
      subst this
      rw [markLastPending, hrest]
      have hne : ¬(x.id = r'.id) := by
        intro heq
        exact hxnotin (heq ▸ List.mem_map_of_mem _ (lastPending_mem rest r' hrest))
      rw [findRecord?, if_neg hne]
      exact ih hrest hndrest
    | none =>
      rw [lastPending, hrest] at hl
      by_cases hex : x.executed
      · rw [if_pos hex] at hl
        cases hl
      · rw [if_neg hex] at hl
        have : x = r := Option.some_inj.mp hl
        subst this
        rw [markLastPending, hrest, if_neg hex, findRecord?, if_pos rfl]

/-- C6 (amended): execute followed immediately by undo on the latest pending
record restores `remaining_cash` and every affected security's aggregate
quantity, provided record ids are unique, the record's actions reference
pairwise-distinct securities, every sell action's first matching holding row
exists and holds at least the sold quantity, and the affected rows have
nonnegative quantities. -/
theorem C6_execute_undo_roundtrip_amended (s₀ : EngineState) (r : Record)
    (hsel : lastPending s₀.records = some r)
    (hids : (s₀.records.map (·.id)).Nodup)
    (hund : r.undone = false)
    (hnd : (r.actions.map (·.stockId)).Nodup)
    (hsell : ∀ a ∈ r.actions, a.action = ActionKind.sell →
      ∃ hr, (sRows a.stockId s₀.holdings).head? = some hr ∧ a.quantity ≤ hr.quantity)
    (hnn : ∀ a ∈ r.actions, ∀ x ∈ sRows a.stockId s₀.holdings, 0 ≤ x.quantity) :
    ∃ s₂, undoRebalancing (executeRebalancing s₀) r.id = Except.ok s₂ ∧
      s₂.remainingCash = s₀.remainingCash ∧
      ∀ a ∈ r.actions, aggQty a.stockId s₂.holdings = aggQty a.stockId s₀.holdings := by
  have hrows : ∀ a ∈ r.actions, a.action = ActionKind.sell → HasRow a.stockId s₀.holdings := by
    intro a ha has
    obtain ⟨hr0, hh, -⟩ := hsell a ha has
    rw [hasRow_iff]
    intro hnil
    rw [hnil] at hh
    cases hh
  have hexec : executeRebalancing s₀ =
      ⟨(execFold r.actions (s₀.holdings, 0, 0)).1,
        s₀.remainingCash + ((execFold r.actions (s₀.holdings, 0, 0)).2.1 -
          (execFold r.actions (s₀.holdings, 0, 0)).2.2),
        markLastPending s₀.records⟩ := by
    rw [executeRebalancing, hsel]
  have hfind : findRecord? (markLastPending s₀.records) r.id =
      some { r with executed := true } := findRecord_mark _ _ hsel hids
  have hundo : undoRebalancing (executeRebalancing s₀) r.id =
      Except.ok ⟨(undoFold r.actions ((execFold r.actions (s₀.holdings, 0, 0)).1, 0, 0)).1,
        (s₀.remainingCash + ((execFold r.actions (s₀.holdings, 0, 0)).2.1 -
          (execFold r.actions (s₀.holdings, 0, 0)).2.2)) +
          ((undoFold r.actions ((execFold r.actions (s₀.holdings, 0, 0)).1, 0, 0)).2.1 -
           (undoFold r.actions ((execFold r.actions (s₀.holdings, 0, 0)).1, 0, 0)).2.2),
        (markLastPending s₀.records).map
          (fun x => if x.id = r.id then { x with undone := true } else x)⟩ := by
    rw [hexec, undoRebalancing]
    simp only [hfind]
    rw [if_neg (by simp), if_neg (by simp [hund])]
  refine ⟨_, hundo, ?_, ?_⟩
  · show (s₀.remainingCash + ((execFold r.actions (s₀.holdings, 0, 0)).2.1 -
        (execFold r.actions (s₀.holdings, 0, 0)).2.2)) +
        ((undoFold r.actions ((execFold r.actions (s₀.holdings, 0, 0)).1, 0, 0)).2.1 -
         (undoFold r.actions ((execFold r.actions (s₀.holdings, 0, 0)).1, 0, 0)).2.2) =
      s₀.remainingCash
    have hec := execFold_cash r.actions s₀.holdings 0 0 hnd hrows
    have huc := undoFold_cash r.actions (execFold r.actions (s₀.holdings, 0, 0)).1 0 0
    rw [hec.1, hec.2, huc.1, huc.2]
    ring
  · intro a ha
    show aggQty a.stockId
      (undoFold r.actions ((execFold r.actions (s₀.holdings, 0, 0)).1, 0, 0)).1 =
      aggQty a.stockId s₀.holdings
    rw [undoFold_fst, execFold_fst]
    exact roundtrip_agg r.actions s₀.holdings hnd hsell hnn a ha

/-- Counterexample state for C6: one pending record selling 5 shares of
stock 1 at price 100 while no holding row for stock 1 exists. -/
def stateC6 : EngineState :=
  ⟨[], 1000, [⟨1, [⟨ActionKind.sell, 1, 5, 100⟩], false, false⟩]⟩

/-- C6 counterexample: on `stateC6`, execute is a no-op for the sell (no
holding row exists, so no cash is credited), but undo buys the 5 shares back
unconditionally — the round trip ends with `remaining_cash` 500 instead of
1000 and aggregate quantity 5 instead of 0, refuting the claim as stated
over every strategy state and pending record. -/
theorem C6_roundtrip_counterexample :
    undoRebalancing (executeRebalancing stateC6) 1 =
      Except.ok ⟨[⟨1, 5, 100, 500⟩], 500,
        [⟨1, [⟨ActionKind.sell, 1, 5, 100⟩], true, true⟩]⟩ ∧
    ¬((500 : ℚ) = stateC6.remainingCash ∧
      aggQty 1 [(⟨1, 5, 100, 500⟩ : HoldingRow)] = aggQty 1 stateC6.holdings) := by
  constructor
  · norm_num [stateC6, executeRebalancing, lastPending, markLastPending, execFold, execStep,
      HasRow, undoRebalancing, findRecord?, undoFold, undoStep, execBuyH, execSellH]
  · rintro ⟨hc, -⟩
    rw [show stateC6.remainingCash = 1000 from rfl] at hc
    norm_num at hc

/-- The record of the C6 witness: a sell of 6 shares of stock 1 at 50 and a
buy of 3 shares of stock 2 at 100. -/
def recW6 : Record :=
  ⟨7, [⟨ActionKind.sell, 1, 6, 50⟩, ⟨ActionKind.buy, 2, 3, 100⟩], false, false⟩

/-- The state of the C6 witness: 10 shares of stock 1 at average cost 90,
cash 1000, one pending record. -/
def stateW6 : EngineState :=
  ⟨[⟨1, 10, 90, 900⟩], 1000, [recW6]⟩

/-- The state after execute-then-undo on `stateW6`: cash and aggregate
quantities restored, average price rewritten to 66. -/
def stateW6r : EngineState :=
  ⟨[⟨1, 10, 66, 500⟩], 1000,
    [⟨7, [⟨ActionKind.sell, 1, 6, 50⟩, ⟨ActionKind.buy, 2, 3, 100⟩], true, true⟩]⟩

theorem undoW6_eval :
    undoRebalancing (executeRebalancing stateW6) 7 = Except.ok stateW6r := by
  norm_num [stateW6, stateW6r, recW6, executeRebalancing, lastPending, markLastPending,
    execFold, execStep, HasRow, undoRebalancing, findRecord?, undoFold, undoStep,
    execBuyH, execSellH]

/-- Witness for the amended C6: on `stateW6` the round trip restores cash
(1000) and the aggregate quantities of both affected stocks. -/
theorem C6_execute_undo_roundtrip_amended_witness :
    undoRebalancing (executeRebalancing stateW6) 7 = Except.ok stateW6r ∧
    stateW6r.remainingCash = stateW6.remainingCash ∧
    aggQty 1 stateW6r.holdings = aggQty 1 stateW6.holdings ∧
    aggQty 2 stateW6r.holdings = aggQty 2 stateW6.holdings := by
  have hsell : ∀ a ∈ recW6.actions, a.action = ActionKind.sell →
      ∃ hr, (sRows a.stockId stateW6.holdings).head? = some hr ∧
        a.quantity ≤ hr.quantity := by
    intro a ha hs
    rcases List.mem_cons.mp ha with ha | ha
    · subst ha
      exact ⟨⟨1, 10, 90, 900⟩, rfl, by norm_num⟩
    · rcases List.mem_cons.mp ha with ha | ha
      · subst ha
        exact ActionKind.noConfusion hs
      · cases ha
  have hnn : ∀ a ∈ recW6.actions, ∀ x ∈ sRows a.stockId stateW6.holdings,
      0 ≤ x.quantity := by
    intro a ha x hx
    rcases List.mem_cons.mp ha with ha | ha
    · subst ha
      have : x = ⟨1, 10, 90, 900⟩ := by
        simpa [stateW6, recW6, sRows] using hx
      rw [this]
      norm_num
    · rcases List.mem_cons.mp ha with ha | ha
      · subst ha
        simp [stateW6, recW6, sRows] at hx
      · cases ha
  obtain ⟨s₂, hok, hcash, hagg⟩ := C6_execute_undo_roundtrip_amended stateW6 recW6
    rfl (by simp [stateW6, recW6]) rfl (by simp [recW6]) hsell hnn
  have hs2 : s₂ = stateW6r := by
    have hok7 : undoRebalancing (executeRebalancing stateW6) 7 = Except.ok s₂ := hok
    rw [undoW6_eval] at hok7
    exact (Except.ok.inj hok7).symm
  subst hs2
  refine ⟨undoW6_eval, hcash, ?_, ?_⟩
  · exact hagg _ (List.mem_cons_self _ _)
  · exact hagg _ (List.mem_cons_of_mem _ (List.mem_cons_self _ _))

/-! ## The Portfolio-Change Propagator (C9) -/

/-- `stock_allocations.pop(str(stock_id), None)` for every removed stock:
drop the entries whose key is in the removed set (order preserved). -/
def removeKeys (removed : List Nat) : List (Nat × ℚ) → List (Nat × ℚ)
  | [] => []
  | kv :: t => if kv.1 ∈ removed then removeKeys removed t else kv :: removeKeys removed t

/-- `_update_strategy_allocations_after_portfolio_change` on one
`stock_allocations` mapping (association list in dict order): delete removed
keys; if stocks were added, scale every survivor by `len(remaining)/total`
and append each added stock at `100/total`; with no survivors, split 100
equally among the added stocks; with nothing added, no renormalization
happens. -/
def updStockAllocations (sa : List (Nat × ℚ)) (removed added : List Nat) :
    List (Nat × ℚ) :=
  let remaining := removeKeys removed sa
  if added ≠ [] then
    if remaining ≠ [] then
      remaining.map (fun kv => (kv.1,
          kv.2 * ((remaining.length : ℚ) / ((remaining.length + added.length : ℕ) : ℚ)))) ++
        added.map (fun sid => (sid, 100 / ((remaining.length + added.length : ℕ) : ℚ)))
    else
      added.map (fun sid => (sid, 100 / (added.length : ℚ)))
  else remaining

/-- Sum of the percentage values of a `stock_allocations` mapping. -/
def allocSum (sa : List (Nat × ℚ)) : ℚ :=
  (sa.map (·.2)).sum

theorem removeKeys_nil (sa : List (Nat × ℚ)) : removeKeys [] sa = sa := by
  induction sa with
  | nil => rfl
  | cons kv t ih =>
    rw [removeKeys, if_neg (by simp), ih]

theorem allocSum_map_scale (sa : List (Nat × ℚ)) (c : ℚ) :
    allocSum (sa.map (fun kv => (kv.1, kv.2 * c))) = allocSum sa * c := by
  induction sa with
  | nil => simp [allocSum]
  | cons kv t ih =>
    simp only [allocSum, List.map_cons, List.sum_cons] at ih ⊢
    rw [ih]
    ring

theorem allocSum_map_const (ids : List Nat) (c : ℚ) :
    allocSum (ids.map (fun sid => (sid, c))) = (ids.length : ℚ) * c := by
  induction ids with
  | nil => simp [allocSum]
  | cons i t ih =>
    simp only [allocSum, List.map_cons, List.sum_cons, List.length_cons] at ih ⊢
    rw [ih]
    push_cast
    ring

theorem allocSum_append (l₁ l₂ : List (Nat × ℚ)) :
    allocSum (l₁ ++ l₂) = allocSum l₁ + allocSum l₂ := by
  simp [allocSum]

/-- C9 counterexample: a pure removal is never renormalized — removing stock
1 from a 50/50 mapping leaves a sum of 50, far outside 100 ± 0.01, refuting
the claim as stated (which covers any non-empty removed or added set). -/
theorem C9_propagator_counterexample :
    updStockAllocations [(1, 50), (2, 50)] [1] [] = [(2, 50)] ∧
    ¬(|allocSum (updStockAllocations [(1, 50), (2, 50)] [1] []) - 100| ≤ 1 / 100) := by
  have h : updStockAllocations [(1, 50), (2, 50)] [1] [] = [(2, 50)] := by
    norm_num [updStockAllocations, removeKeys]
  refine ⟨h, ?_⟩
  rw [h]
  norm_num [allocSum]

/-- C9 (amended): when the propagator only adds securities (empty removed
set, fresh distinct added keys), a `stock_allocations` mapping summing to
100 ± 0.01 still sums to 100 ± 0.01 afterwards; with a non-empty removed set
the invariant fails (see the counterexample). -/
theorem C9_propagator_sum_amended (sa : List (Nat × ℚ)) (added : List Nat)
    (hsum : |allocSum sa - 100| ≤ 1 / 100)
    (hne : added ≠ [])
    (hnd : added.Nodup)
    (hdisj : ∀ k ∈ added, ∀ kv ∈ sa, kv.1 ≠ k) :
    |allocSum (updStockAllocations sa [] added) - 100| ≤ 1 / 100 := by
  have hlen : 0 < added.length := List.length_pos.mpr hne
  have ha0 : (0 : ℚ) < (added.length : ℚ) := by exact_mod_cast hlen
  simp only [updStockAllocations, removeKeys_nil]
  rw [if_pos hne]
  by_cases hsa : sa = []
  · rw [if_neg (by rw [hsa]; simp)]
    rw [allocSum_map_const]
    have : (added.length : ℚ) * (100 / (added.length : ℚ)) = 100 := by
      field_simp
    rw [this]
    norm_num
  · rw [if_pos hsa]
    have hr0 : (0 : ℚ) < (sa.length : ℚ) := by
      exact_mod_cast List.length_pos.mpr hsa
    rw [allocSum_append, allocSum_map_scale, allocSum_map_const]
    push_cast
    have ht : (0 : ℚ) < (sa.length : ℚ) + (added.length : ℚ) := by linarith
    have hfrac0 : (0 : ℚ) ≤ (sa.length : ℚ) / ((sa.length : ℚ) + (added.length : ℚ)) := by
      positivity
    have hfrac1 : (sa.length : ℚ) / ((sa.length : ℚ) + (added.length : ℚ)) ≤ 1 := by
      rw [div_le_one ht]
      linarith
    have heq : allocSum sa * ((sa.length : ℚ) / ((sa.length : ℚ) + (added.length : ℚ))) +
        (added.length : ℚ) * (100 / ((sa.length : ℚ) + (added.length : ℚ))) - 100 =
        (allocSum sa - 100) * ((sa.length : ℚ) / ((sa.length : ℚ) + (added.length : ℚ))) := by
      field_simp
      ring
    rw [heq, abs_mul, abs_of_nonneg hfrac0]
    calc |allocSum sa - 100| * ((sa.length : ℚ) / ((sa.length : ℚ) + (added.length : ℚ)))
        ≤ |allocSum sa - 100| * 1 :=
          mul_le_mul_of_nonneg_left hfrac1 (abs_nonneg _)
      _ = |allocSum sa - 100| := mul_one _
      _ ≤ 1 / 100 := hsum

/-- Witness for the amended C9: adding stock 3 to the 50/50 mapping scales
the survivors to 100/3 each and gives the new stock 100/3 — the sum stays
exactly 100. -/
theorem C9_propagator_sum_amended_witness :
    |allocSum (updStockAllocations [(1, 50), (2, 50)] [] [3]) - 100| ≤ 1 / 100 := by
  apply C9_propagator_sum_amended
  · norm_num [allocSum]
  · simp
  · simp
  · intro k hk kv hkv
    simp only [List.mem_singleton] at hk
    subst hk
    rcases List.mem_cons.mp hkv with h | h
    · rw [h]; norm_num
    · rcases List.mem_cons.mp h with h' | h'
      · rw [h']; norm_num
      · cases h'

/-! ## The Initial Holdings Builder (C8) -/

/-- A `Holding` created by `calculate_initial_holdings`: one row per
(portfolio allocation, stock) with positive floor quantity. -/
structure InitHolding where
  portfolioId : Nat
  stockId : Nat
  quantity : ℤ
  averagePrice : ℚ
  currentValue : ℚ
deriving Repr, DecidableEq

/-- Inner loop body of `calculate_initial_holdings`: skip missing stocks,
floor-quantize, and create a holding (appending) and accumulate the actual
cost only when the quantity is positive. -/
def initStock (env : Env) (pid : Nat) (pf : ℚ) (st : List InitHolding × ℚ)
    (sa : StockAlloc) : List InitHolding × ℚ :=
  match env.price sa.stockId with
  | none => st
  | some p =>
    if 0 < ⌊pf * (sa.pct / 100) / p⌋ then
      (st.1 ++ [⟨pid, sa.stockId, ⌊pf * (sa.pct / 100) / p⌋, p,
          (⌊pf * (sa.pct / 100) / p⌋ : ℚ) * p⟩],
        st.2 + (⌊pf * (sa.pct / 100) / p⌋ : ℚ) * p)
    else st

/-- Outer loop body of `calculate_initial_holdings` for one portfolio
allocation (skipped when the portfolio row is missing). -/
def initPortfolio (env : Env) (totalFunds : ℚ) (st : List InitHolding × ℚ)
    (pa : PortfolioAlloc) : List InitHolding × ℚ :=
  if env.portfolioExists pa.portfolioId then
    pa.stockAllocations.foldl
      (initStock env pa.portfolioId (totalFunds * (pa.percentage / 100))) st
  else st

/-- `calculate_initial_holdings(db, strategy)`: floor-only quantization (no
greedy leftover redistribution), one holding per (portfolio, stock) with
positive quantity, and `remaining_cash = total_funds − total_invested`. -/
def calculateInitialHoldings (env : Env) (allocs : List PortfolioAlloc)
    (totalFunds : ℚ) : List InitHolding × ℚ :=
  let st := allocs.foldl (initPortfolio env totalFunds) ([], 0)
  (st.1, totalFunds - st.2)

/-- Aggregate created quantity of one stock across the created holdings. -/
def initQty (sid : Nat) : List InitHolding → ℤ
  | [] => 0
  | h :: t => (if h.stockId = sid then h.quantity else 0) + initQty sid t

/-- Quantity of one stock in a target-entry list (0 when absent; entries
have unique stock ids, so this is the mapping's value). -/
def entryQty (sid : Nat) : List TargetEntry → ℤ
  | [] => 0
  | e :: t => (if e.stockId = sid then e.quantity else 0) + entryQty sid t

theorem initQty_append (sid : Nat) (l₁ l₂ : List InitHolding) :
    initQty sid (l₁ ++ l₂) = initQty sid l₁ + initQty sid l₂ := by
  induction l₁ with
  | nil => simp [initQty]
  | cons h t ih =>
    show (if h.stockId = sid then h.quantity else 0) + initQty sid (t ++ l₂) =
      ((if h.stockId = sid then h.quantity else 0) + initQty sid t) + initQty sid l₂
    rw [ih]
    ring

theorem entryQty_upsert (es : List TargetEntry) (sid : Nat) (q : ℤ) (p tv : ℚ) :
    ∀ t, entryQty t (upsertEntry es sid q p tv) =
      entryQty t es + (if sid = t then q else 0) := by
  induction es with
  | nil =>
    intro t
    by_cases ht : sid = t <;> simp [upsertEntry, entryQty, ht]
  | cons e rest ih =>
    intro t
    by_cases hk : e.stockId = sid
    · rw [upsertEntry, if_pos hk]
      simp only [entryQty]
      by_cases ht : e.stockId = t
      · rw [if_pos ht, if_pos ht, if_pos (hk ▸ ht)]
        ring
      · rw [if_neg ht, if_neg ht, if_neg (by rw [← hk]; exact ht)]
        ring
    · rw [upsertEntry, if_neg hk]
      simp only [entryQty, ih t]
      ring

theorem entriesSpent_upsert (es : List TargetEntry) (sid : Nat) (q : ℤ) (p tv : ℚ)
    (hkey : ∀ e ∈ es, e.stockId = sid → e.price = p) :
    entriesSpent (upsertEntry es sid q p tv) = entriesSpent es + (q : ℚ) * p := by
  induction es with
  | nil => simp [upsertEntry, entriesSpent]
  | cons e rest ih =>
    by_cases hk : e.stockId = sid
    · rw [upsertEntry, if_pos hk]
      have hep : e.price = p := hkey e (List.mem_cons_self _ _) hk
      simp only [entriesSpent, List.map_cons, List.sum_cons]
      rw [hep]
      push_cast
      ring
    · rw [upsertEntry, if_neg hk]
      have hkey' : ∀ x ∈ rest, x.stockId = sid → x.price = p :=
        fun x hx => hkey x (List.mem_cons_of_mem _ hx)
      simp only [entriesSpent, List.map_cons, List.sum_cons]
      have := ih hkey'
      simp only [entriesSpent] at this
      rw [this]
      ring

theorem initStock_floorStock (env : Env) (pid : Nat) (pf : ℚ) (sa : StockAlloc)
    (st : List InitHolding × ℚ) (es : List TargetEntry)
    (hpos : ∀ sid p, env.price sid = some p → 0 < p)
    (hpf : 0 ≤ pf) (hpct : 0 ≤ sa.pct)
    (hpriced : ∀ e ∈ es, PricedBy env e)
    (hq : ∀ sid, initQty sid st.1 = entryQty sid es)
    (hs : st.2 = entriesSpent es) :
    (∀ sid, initQty sid (initStock env pid pf st sa).1 =
      entryQty sid (floorStock env pf es sa)) ∧
    (initStock env pid pf st sa).2 = entriesSpent (floorStock env pf es sa) := by
  cases hp : env.price sa.stockId with
  | none =>
    simp only [initStock, floorStock, hp]
    exact ⟨hq, hs⟩
  | some p =>
    have hppos : 0 < p := hpos _ _ hp
    have hsf : 0 ≤ pf * (sa.pct / 100) :=
      mul_nonneg hpf (div_nonneg hpct (by norm_num))
    have hq0 : 0 ≤ ⌊pf * (sa.pct / 100) / p⌋ :=
      Int.floor_nonneg.mpr (div_nonneg hsf (le_of_lt hppos))
    have hkey : ∀ e ∈ es, e.stockId = sa.stockId → e.price = p := by
      intro e he heq
      have hpr := hpriced e he
      unfold PricedBy at hpr
      rw [heq, hp] at hpr
      exact (Option.some_inj.mp hpr).symm
    simp only [initStock, floorStock, hp]
    by_cases h0 : 0 < ⌊pf * (sa.pct / 100) / p⌋
    · rw [if_pos h0]
      constructor
      · intro sid
        rw [initQty_append, entryQty_upsert, hq sid]
        simp only [initQty]
        ring
      · rw [entriesSpent_upsert _ _ _ _ _ hkey, hs]
    · rw [if_neg h0]
      have hz : ⌊pf * (sa.pct / 100) / p⌋ = 0 := le_antisymm (not_lt.mp h0) hq0
      constructor
      · intro sid
        rw [entryQty_upsert, hq sid, hz]
        simp
      · rw [entriesSpent_upsert _ _ _ _ _ hkey, hs, hz]
        push_cast
        ring

theorem initStocks_floorStocks (env : Env) (pid : Nat) (pf : ℚ)
    (hpos : ∀ sid p, env.price sid = some p → 0 < p) (hpf : 0 ≤ pf)
    (sas : List StockAlloc) :
    (∀ sa ∈ sas, 0 ≤ sa.pct) →
    ∀ (st : List InitHolding × ℚ) (es : List TargetEntry),
      (∀ e ∈ es, PricedBy env e) →
      (∀ sid, initQty sid st.1 = entryQty sid es) →
      st.2 = entriesSpent es →
      (∀ sid, initQty sid (sas.foldl (initStock env pid pf) st).1 =
        entryQty sid (sas.foldl (floorStock env pf) es)) ∧
      (sas.foldl (initStock env pid pf) st).2 =
        entriesSpent (sas.foldl (floorStock env pf) es) := by
  induction sas with
  | nil => intro _ st es _ hq hs; exact ⟨hq, hs⟩
  | cons sa rest ih =>
    intro hpcts st es hpriced hq hs
    have hstep := initStock_floorStock env pid pf sa st es hpos hpf
      (hpcts sa (List.mem_cons_self _ _)) hpriced hq hs
    exact ih (fun x hx => hpcts x (List.mem_cons_of_mem _ hx))
      (initStock env pid pf st sa) (floorStock env pf es sa)
      (floorStock_priced env pf es sa hpriced) hstep.1 hstep.2

theorem initPortfolio_floorPortfolio (env : Env) (F : ℚ)
    (hpos : ∀ sid p, env.price sid = some p → 0 < p) (hF : 0 ≤ F)
    (pa : PortfolioAlloc) (hpct : 0 ≤ pa.percentage)
    (hpcts : ∀ sa ∈ pa.stockAllocations, 0 ≤ sa.pct)
    (st : List InitHolding × ℚ) (es : List TargetEntry)
    (hpriced : ∀ e ∈ es, PricedBy env e)
    (hq : ∀ sid, initQty sid st.1 = entryQty sid es)
    (hs : st.2 = entriesSpent es) :
    (∀ sid, initQty sid (initPortfolio env F st pa).1 =
      entryQty sid (floorPortfolio env F es pa)) ∧
    (initPortfolio env F st pa).2 = entriesSpent (floorPortfolio env F es pa) := by
  rw [initPortfolio, floorPortfolio]
  by_cases hex : env.portfolioExists pa.portfolioId
  · rw [if_pos hex, if_pos hex]
    have hpf : 0 ≤ F * (pa.percentage / 100) :=
      mul_nonneg hF (div_nonneg hpct (by norm_num))
    exact initStocks_floorStocks env pa.portfolioId _ hpos hpf
      pa.stockAllocations hpcts st es hpriced hq hs
  · rw [if_neg hex, if_neg hex]
    exact ⟨hq, hs⟩

theorem init_floor_correspond (env : Env) (allocs : List PortfolioAlloc) (F : ℚ)
    (hpos : ∀ sid p, env.price sid = some p → 0 < p) (hF : 0 ≤ F)
    (hpct : ∀ pa ∈ allocs, 0 ≤ pa.percentage ∧ ∀ sa ∈ pa.stockAllocations, 0 ≤ sa.pct) :
    (∀ sid, initQty sid (allocs.foldl (initPortfolio env F) ([], 0)).1 =
      entryQty sid (floorStage env allocs F)) ∧
    (allocs.foldl (initPortfolio env F) ([], 0)).2 =
      entriesSpent (floorStage env allocs F) := by
  unfold floorStage
  have hgen : ∀ allocs' : List PortfolioAlloc,
      (∀ pa ∈ allocs', 0 ≤ pa.percentage ∧ ∀ sa ∈ pa.stockAllocations, 0 ≤ sa.pct) →
      ∀ (st : List InitHolding × ℚ) (es : List TargetEntry),
      (∀ e ∈ es, PricedBy env e) →
      (∀ sid, initQty sid st.1 = entryQty sid es) →
      st.2 = entriesSpent es →
      (∀ sid, initQty sid (allocs'.foldl (initPortfolio env F) st).1 =
        entryQty sid (allocs'.foldl (floorPortfolio env F) es)) ∧
      (allocs'.foldl (initPortfolio env F) st).2 =
        entriesSpent (allocs'.foldl (floorPortfolio env F) es) := by
    intro allocs'
    induction allocs' with
    | nil => intro _ st es _ hq hs; exact ⟨hq, hs⟩
    | cons pa rest ih =>
      intro hpcts st es hpriced hq hs
      have hpa := hpcts pa (List.mem_cons_self _ _)
      have hstep := initPortfolio_floorPortfolio env F hpos hF pa hpa.1 hpa.2
        st es hpriced hq hs
      exact ih (fun x hx => hpcts x (List.mem_cons_of_mem _ hx))
        (initPortfolio env F st pa) (floorPortfolio env F es pa)
        (floorPortfolio_priced env F es pa hpriced) hstep.1 hstep.2
  exact hgen allocs hpct ([], 0) [] (fun e he => absurd he (List.not_mem_nil e))
    (fun sid => rfl) rfl

/-- C8 counterexample: on Scenario A's inputs the Initial Holdings Builder
creates 50 shares of stock 1 (floor only), while §4.1 with its greedy
leftover redistribution returns 52 — the builder does not reproduce the full
calculator. -/
theorem C8_initial_equals_calculator_counterexample :
    initQty 1 (calculateInitialHoldings envA allocsA 10000).1 = 50 ∧
    entryQty 1 (calcTargetAllocations envA allocsA 10000).1 = 52 ∧
    initQty 1 (calculateInitialHoldings envA allocsA 10000).1 ≠
      entryQty 1 (calcTargetAllocations envA allocsA 10000).1 := by
  have h1 : initQty 1 (calculateInitialHoldings envA allocsA 10000).1 = 50 := by
    norm_num [calculateInitialHoldings, initPortfolio, initStock, envA, allocsA, initQty]
  have h2 : entryQty 1 (calcTargetAllocations envA allocsA 10000).1 = 52 := by
    rw [scenarioA_eval]
    norm_num [entryQty]
  refine ⟨h1, h2, ?_⟩
  rw [h1, h2]
  norm_num

/-- C8 (amended): the Initial Holdings Builder reproduces only the
floor-quantization stage of §4.1, without the greedy leftover
redistribution: per security the created aggregate quantity equals the
floor-stage quantity, and `remaining_cash` is the total funds minus the
floor-stage cost (with positive prices, nonnegative funds and
percentages). -/
theorem C8_initial_holdings_floor_only (env : Env) (allocs : List PortfolioAlloc)
    (F : ℚ) (hpos : ∀ sid p, env.price sid = some p → 0 < p) (hF : 0 ≤ F)
    (hpct : ∀ pa ∈ allocs, 0 ≤ pa.percentage ∧ ∀ sa ∈ pa.stockAllocations, 0 ≤ sa.pct) :
    (∀ sid, initQty sid (calculateInitialHoldings env allocs F).1 =
      entryQty sid (floorStage env allocs F)) ∧
    (calculateInitialHoldings env allocs F).2 =
      F - entriesSpent (floorStage env allocs F) := by
  have h := init_floor_correspond env allocs F hpos hF hpct
  constructor
  · exact h.1
  · show F - (allocs.foldl (initPortfolio env F) ([], 0)).2 = _
    rw [h.2]

/-- Witness for the amended C8 on Scenario A: created quantity of stock 1
matches the floor stage (50) and the remaining cash is
`10000 − floor-stage cost` (200). -/
theorem C8_initial_holdings_floor_only_witness :
    initQty 1 (calculateInitialHoldings envA allocsA 10000).1 =
      entryQty 1 (floorStage envA allocsA 10000) ∧
    (calculateInitialHoldings envA allocsA 10000).2 =
      10000 - entriesSpent (floorStage envA allocsA 10000) := by
  have hpct : ∀ pa ∈ allocsA, 0 ≤ pa.percentage ∧
      ∀ sa ∈ pa.stockAllocations, 0 ≤ sa.pct := by
    intro pa hpa
    rw [List.mem_singleton.mp hpa]
    refine ⟨by norm_num, ?_⟩
    intro sa hsa
    rcases List.mem_cons.mp hsa with h | h
    · rw [h]; norm_num
    · rcases List.mem_cons.mp h with h' | h'
      · rw [h']; norm_num
      · cases h'
  have h := C8_initial_holdings_floor_only envA allocsA 10000 envA_prices_pos
    (by norm_num) hpct
  exact ⟨h.1 1, h.2⟩

/-- State for Scenario C: a single record that was never executed. -/
def stateW7 : EngineState :=
  ⟨[], 1000, [⟨1, [], false, false⟩]⟩

/-- Witness for C7: undo on the never-executed record of `stateW7` fails
with the InvalidState error `notExecuted` and leaves the state unchanged. -/
theorem C7_undo_invalid_state_iff_witness :
    (runUndo stateW7 1).2 = some UndoError.notExecuted ∧ (runUndo stateW7 1).1 = stateW7 := by
  refine ⟨rfl, ?_⟩
  exact (C7_undo_invalid_state_iff stateW7 1).2 UndoError.notExecuted rfl

end EGX
